import Mathlib

/-!
Verification development for the architecture parsing and graph-normalization
engine of the azure-cloud-ai-visualizer repository.

Part 1 models the structured-diagram normalizer and node generator.  The
TypeScript implementation of `ArchitectureParser` is not among the visible
sources (only its test suite `architectureParser.test.ts`, the type
declarations `ParsedArchitecture`/`ParsedGroup`/`ParsedGroupType`, and the
pattern tables are visible), so those definitions are modelled from the
specification (spec.md sections 4.3, 4.4, 4.5, 6) and are checked against the
repository's test fixtures.

Part 2 embeds the Bicep resource extractor (`parseBicepResources` and
`extractBlock`) directly from the visible source file, and Part 3 embeds the
arrow-connection regular expression of `patterns.ts`.
-/

namespace AzViz

/-- The closed set of group kinds, from `ParsedGroupType` in `types.ts`. -/
inductive GroupType where
  | region
  | landingZone
  | virtualNetwork
  | subnet
  | cluster
  | resourceGroup
  | networkSecurityGroup
  | securityBoundary
  | managementGroup
  | subscription
  | policyAssignment
  | roleAssignment
  | default
deriving DecidableEq, Repr

/-- Modelled from the spec: a loosely-typed service entry of the structured
diagram payload (spec section 6: `{id, title, groupIds?}`); the
`ArchitectureParser` implementation consuming it is missing from the visible
sources. -/
structure RawService where
  id : String
  title : String
  groupIds : List String
deriving DecidableEq, Repr

/-- Modelled from the spec: a loosely-typed group entry of the structured
diagram payload (spec section 6: `{id, label, members[], parentId?}`), with
optional passthrough fields a loosely-typed object may carry. -/
structure RawGroup where
  id : String
  label : String
  members : List String
  parentId : Option String
  gtype : Option GroupType
  sourceServiceId : Option String
deriving DecidableEq, Repr

/-- A connection `{from, to, label?}`; fields renamed `fromId`/`toId` because
`from` is reserved syntax in Lean. -/
structure Connection where
  fromId : String
  toId : String
  label : Option String
deriving DecidableEq, Repr

/-- Modelled from the spec: the loosely-typed input value handed to
`parseStructuredDiagram` (spec section 6: any deviation from "is an object
with a services array" must yield null). -/
structure LoosePayload where
  isObject : Bool
  services : Option (List RawService)
  groups : Option (List RawGroup)
  connections : Option (List Connection)
deriving Repr

/-- A resolved service in the normalized output (identity fields only; the
catalog resolution of icons and categories is outside the modelled core). -/
structure ModelService where
  id : String
  title : String
deriving DecidableEq, Repr

/-- A containment group of the normalized output, from `ParsedGroup` in the
visible type declarations. -/
structure ParsedGroup where
  id : String
  label : String
  type : GroupType
  members : List String
  parentId : Option String
  sourceServiceId : Option String
deriving DecidableEq, Repr

/-- Rendering layout hint of `ParsedArchitecture`. -/
inductive Layout where
  | horizontal
  | vertical
  | grid
deriving DecidableEq, Repr

/-- The normalized result, from the `ParsedArchitecture` interface in the
visible type declarations. -/
structure ParsedArchitecture where
  services : List ModelService
  connections : List Connection
  layout : Layout
  groups : List ParsedGroup
deriving DecidableEq, Repr

/-- Append an id to an accumulator unless already present (first-seen order). -/
def addUnique (acc : List String) (x : String) : List String :=
  if x ∈ acc then acc else acc ++ [x]

/-- Union of id lists preserving first-seen order and deduplicating. -/
def mergeIds (a b : List String) : List String :=
  b.foldl addUnique a

/-- Deduplicate an id list preserving first-seen order. -/
def dedupIds (l : List String) : List String :=
  mergeIds [] l

/-- Modelled from the spec: service dedup step (spec section 4.3 rule 1) -
for an id seen more than once keep the first occurrence's scalar fields and
union the `groupIds`. -/
def addService (acc : List RawService) (s : RawService) : List RawService :=
  if acc.any (fun t => t.id == s.id) then
    acc.map (fun t =>
      if t.id == s.id then { t with groupIds := mergeIds t.groupIds s.groupIds } else t)
  else
    acc ++ [s]

/-- Modelled from the spec: walk the services list deduplicating by id. -/
def dedupServices (l : List RawService) : List RawService :=
  l.foldl addService []

/-- Lowercased container vocabulary with its group kind, from the group kinds
of `ParsedGroupType` and the container names of the alias table. -/
def groupTypeTable : List (String × GroupType) :=
  [("management group", .managementGroup), ("management groups", .managementGroup),
   ("subscription", .subscription), ("subscriptions", .subscription),
   ("resource group", .resourceGroup), ("resource groups", .resourceGroup),
   ("virtual network", .virtualNetwork), ("virtual networks", .virtualNetwork),
   ("vnet", .virtualNetwork), ("subnet", .subnet),
   ("landing zone", .landingZone), ("landing zones", .landingZone),
   ("network security group", .networkSecurityGroup),
   ("cluster", .cluster), ("region", .region),
   ("security boundary", .securityBoundary),
   ("policy assignment", .policyAssignment), ("role assignment", .roleAssignment)]

/-- Known-container naming heuristic: the lowercased title is in the container
vocabulary. -/
def isContainerTitle (t : String) : Bool :=
  groupTypeTable.any (fun p => p.1 == t.toLower)

/-- Group kind derived from a label, defaulting to `GroupType.default`. -/
def titleToGroupType (t : String) : GroupType :=
  match groupTypeTable.find? (fun p => p.1 == t.toLower) with
  | some p => p.2
  | none => GroupType.default

/-- Modelled from the spec: the id is used as a group somewhere in the payload
(some service's `groupIds` name it, an explicit group carries it, or an
explicit group declares it as `parentId`). -/
def usedAsGroup (svcs : List RawService) (groups : List RawGroup) (i : String) : Bool :=
  svcs.any (fun s => decide (i ∈ s.groupIds)) ||
  groups.any (fun g => g.id == i) ||
  groups.any (fun g => g.parentId == some i)

/-- The id is declared as some group's `parentId`. -/
def listedAsParent (groups : List RawGroup) (i : String) : Bool :=
  groups.any (fun g => g.parentId == some i)

/-- Modelled from the spec: the service takes part in a membership relation -
it is a member of some group via its own `groupIds`, or an explicit group
lists its id among `members`. -/
def referencedAsMember (groups : List RawGroup) (s : RawService) : Bool :=
  !s.groupIds.isEmpty || groups.any (fun g => decide (s.id ∈ g.members))

/-- Modelled from the spec: container promotion heuristic (spec section 4.3
rule 1) - a service is promoted when it is referenced in the group/membership
relations and either another entity lists it as a parent or it carries
known-container naming. -/
def promoteCond (svcs : List RawService) (groups : List RawGroup) (s : RawService) : Bool :=
  (usedAsGroup svcs groups s.id || referencedAsMember groups s) &&
  (listedAsParent groups s.id || isContainerTitle s.title)

/-- A pending update to the group table. -/
structure GroupPatch where
  id : String
  label : String
  gtype : GroupType
  addMembers : List String
  parentId : Option String
  sourceServiceId : Option String
deriving Repr

/-- Apply a patch to an existing group: members are unioned preserving
first-seen order, `parentId` and `sourceServiceId` prefer the first non-null
value encountered, label and kind keep the first-seen value. -/
def applyPatch (g : ParsedGroup) (p : GroupPatch) : ParsedGroup :=
  { g with
      members := mergeIds g.members p.addMembers,
      parentId := g.parentId.orElse (fun _ => p.parentId),
      sourceServiceId := g.sourceServiceId.orElse (fun _ => p.sourceServiceId) }

/-- Modelled from the spec: group materialization merges competing entries
into a single table keyed by group id (spec section 4.3 rule 2). -/
def upsertGroup (table : List ParsedGroup) (p : GroupPatch) : List ParsedGroup :=
  if table.any (fun g => g.id == p.id) then
    table.map (fun g => if g.id == p.id then applyPatch g p else g)
  else
    table ++ [⟨p.id, p.label, p.gtype, dedupIds p.addMembers, p.parentId, p.sourceServiceId⟩]

/-- Patch arising from an explicit group entry of the payload. -/
def explicitPatch (g : RawGroup) : GroupPatch :=
  ⟨g.id, g.label, g.gtype.getD (titleToGroupType g.label), g.members, g.parentId,
   g.sourceServiceId⟩

/-- Display label for a materialized group id: the title of the service with
that id when one exists, the id itself otherwise. -/
def serviceLabelFor (svcs : List RawService) (gid : String) : String :=
  match svcs.find? (fun s => s.id == gid) with
  | some s => s.title
  | none => gid

/-- Patches recording each service's membership in the groups its `groupIds`
name (materializing those groups when absent). -/
def membershipPatches (svcs : List RawService) : List GroupPatch :=
  svcs.flatMap (fun s =>
    s.groupIds.map (fun gid =>
      ⟨gid, serviceLabelFor svcs gid, titleToGroupType (serviceLabelFor svcs gid),
       [s.id], none, none⟩))

/-- Patch recording the group identity of a promoted service, retaining the
former service identity via `sourceServiceId`. -/
def promotedPatch (s : RawService) : GroupPatch :=
  ⟨s.id, s.title, titleToGroupType s.title, [], none, some s.id⟩

/-- Modelled from the spec: build the group table from explicit groups,
service memberships, and promoted services, in that order. -/
def buildGroups (deduped : List RawService) (groups : List RawGroup)
    (promoted : List RawService) : List ParsedGroup :=
  ((groups.map explicitPatch) ++ membershipPatches deduped ++
    promoted.map promotedPatch).foldl upsertGroup []

/-- Modelled from the spec: silently drop members that refer to no surviving
entity (spec section 3 invariant 2). -/
def filterMembers (svcIds gIds : List String) (table : List ParsedGroup) : List ParsedGroup :=
  table.map (fun g =>
    { g with members := g.members.filter (fun m => decide (m ∈ svcIds) || decide (m ∈ gIds)) })

/-- The promoted services of a payload: deduplicated entries satisfying the
promotion heuristic. -/
def promotedOf (svcs : List RawService) (groups : List RawGroup) : List RawService :=
  (dedupServices svcs).filter (fun s => promoteCond (dedupServices svcs) groups s)

/-- The surviving services of a payload: deduplicated entries not promoted. -/
def survivingOf (svcs : List RawService) (groups : List RawGroup) : List RawService :=
  (dedupServices svcs).filter (fun s => !promoteCond (dedupServices svcs) groups s)

/-- The materialized group table of a payload, before member filtering. -/
def tableOf (svcs : List RawService) (groups : List RawGroup) : List ParsedGroup :=
  buildGroups (dedupServices svcs) groups (promotedOf svcs groups)

/-- Ids of the surviving services. -/
def svcIdsOf (svcs : List RawService) (groups : List RawGroup) : List String :=
  (survivingOf svcs groups).map (fun s => s.id)

/-- Ids of the materialized groups. -/
def gIdsOf (svcs : List RawService) (groups : List RawGroup) : List String :=
  (tableOf svcs groups).map (fun g => g.id)

/-- Modelled from the spec: connection retention predicate (spec section 4.3
rule 3) - no self-loop, and both endpoints resolve to a surviving service or
group id. -/
def connPred (svcIds gIds : List String) (c : Connection) : Bool :=
  c.fromId != c.toId &&
  (decide (c.fromId ∈ svcIds) || decide (c.fromId ∈ gIds)) &&
  (decide (c.toId ∈ svcIds) || decide (c.toId ∈ gIds))

/-- Modelled from the spec: the structured-diagram normalizer
(`ArchitectureParser.parseStructuredDiagram` body, missing from the visible
sources) - dedup services, promote containers, materialize groups, and filter
connections, per spec section 4.3. -/
def normalize (svcs : List RawService) (groups : List RawGroup)
    (conns : List Connection) : ParsedArchitecture :=
  { services := (survivingOf svcs groups).map (fun s => ⟨s.id, s.title⟩),
    connections := conns.filter (connPred (svcIdsOf svcs groups) (gIdsOf svcs groups)),
    layout := .horizontal,
    groups := filterMembers (svcIdsOf svcs groups) (gIdsOf svcs groups) (tableOf svcs groups) }

/-- Modelled from the spec: `ArchitectureParser.parseStructuredDiagram`
(missing from the visible sources) - null for any input that is not an object
with a services array, otherwise the normalized architecture. -/
def parseStructuredDiagram (p : LoosePayload) : Option ParsedArchitecture :=
  if !p.isObject then none
  else
    match p.services with
    | none => none
    | some svcs => some (normalize svcs (p.groups.getD []) (p.connections.getD []))

/-- Re-encode a normalized architecture as a loosely-typed payload, for
feeding the normalizer its own output. -/
def toPayload (a : ParsedArchitecture) : LoosePayload :=
  { isObject := true,
    services := some (a.services.map (fun s => ⟨s.id, s.title, []⟩)),
    groups := some (a.groups.map (fun g =>
      ⟨g.id, g.label, g.members, g.parentId, some g.type, g.sourceServiceId⟩)),
    connections := some a.connections }

/-- Discriminator of an emitted diagram node: service leaf or group container. -/
inductive NodeKind where
  | service
  | group
deriving DecidableEq, Repr

/-- A flat positioned node of the output graph (spec section 6: stable entity
id, type discriminator, optional parent reference, display metadata). -/
structure DiagramNode where
  id : String
  kind : NodeKind
  parentId : Option String
  label : String
deriving DecidableEq, Repr

/-- Modelled from the spec: depth-first expansion over the group table with a
visited set; an edge closing a cycle is not followed further (spec section
4.4).  The fuel argument bounds the worklist processing; it is instantiated
generously enough that it never truncates a traversal. -/
def dfsWork (table : List ParsedGroup) :
    Nat → List String → List (ParsedGroup × Option String) → List DiagramNode
  | 0, _, _ => []
  | _ + 1, _, [] => []
  | fuel + 1, visited, (g, parent) :: rest =>
    if g.id ∈ visited then
      dfsWork table fuel visited rest
    else
      let children := (table.filter (fun h => decide (h.id ∈ g.members))).map
        (fun h => (h, some g.id))
      ⟨g.id, .group, parent, g.label⟩ ::
        dfsWork table fuel (g.id :: visited) (children ++ rest)

/-- Innermost containing group of a service: the first group whose members
list the service id. -/
def innerParent (table : List ParsedGroup) (sid : String) : Option String :=
  (table.find? (fun g => decide (sid ∈ g.members))).map (fun g => g.id)

/-- Modelled from the spec: `ArchitectureParser.generateNodes` (missing from
the visible sources) - emit container nodes by depth-first expansion from
root candidates with cycle protection, emit unreached groups flat, and emit
one node per service with its innermost parent group (spec sections 4.4 and
4.5). -/
def generateNodes (arch : ParsedArchitecture) : List DiagramNode :=
  let table := arch.groups
  let roots0 := table.filter (fun g => g.parentId.isNone)
  let roots := if roots0.isEmpty then table.take 1 else roots0
  let fuel := (table.length + 1) * (table.length + 1) + 1
  let gNodes := dfsWork table fuel [] (roots.map (fun g => (g, none)))
  let emitted := gNodes.map (fun n => n.id)
  let leftover := (table.filter (fun g => !decide (g.id ∈ emitted))).map
    (fun g => ⟨g.id, .group, none, g.label⟩)
  let sNodes := arch.services.map (fun s =>
    (⟨s.id, .service, innerParent table s.id, s.title⟩ : DiagramNode))
  gNodes ++ leftover ++ sNodes

end AzViz

namespace Bicep

/-!
Part 2: embedding of the Bicep resource extractor from the visible source
(`parseBicepResources`, `extractBlock`, `extractProperties`).  Strings are
modelled as `List Char`; special characters are named to keep literals plain.
-/

/-- The double-quote character. -/
def quoteChar : Char := Char.ofNat 34

/-- The single-quote character. -/
def tickChar : Char := Char.ofNat 39

/-- The backslash character. -/
def backChar : Char := Char.ofNat 92

/-- The opening curly brace character. -/
def braceOpen : Char := Char.ofNat 123

/-- The closing curly brace character. -/
def braceClose : Char := Char.ofNat 125

/-- The newline character. -/
def newlineChar : Char := Char.ofNat 10

/-- The at-sign character. -/
def atChar : Char := Char.ofNat 64

/-- Whitespace per the JavaScript regex class `\s` (ASCII part), by
character code: space, tab, newline, carriage return, form feed, vertical
tab. -/
def isWS (c : Char) : Bool :=
  c.toNat = 32 || c.toNat = 9 || c.toNat = 10 || c.toNat = 13 ||
  c.toNat = 12 || c.toNat = 11

/-- The identifier class `[a-zA-Z0-9_]` of the resource declaration regex,
by character code. -/
def isIdentChar (c : Char) : Bool :=
  (97 ≤ c.toNat && c.toNat ≤ 122) || (65 ≤ c.toNat && c.toNat ≤ 90) ||
  (48 ≤ c.toNat && c.toNat ≤ 57) || c.toNat = 95

/-- Walk of `extractBlock`'s while loop: one step per character, tracking the
brace depth, the in-string flag toggled on unescaped double quotes, and the
previous character; returns the consumed prefix up to and including the
closing brace, or `none` when the input is exhausted first. -/
def extractBlockGo : List Char → Int → Bool → Option Char → Option (List Char)
  | [], _, _, _ => none
  | c :: rest, braceCount, inString, prevChar =>
    let inString2 := if c = quoteChar && prevChar ≠ some backChar then !inString else inString
    if !inString2 && c = braceOpen then
      (extractBlockGo rest (braceCount + 1) inString2 (some c)).map (fun t => c :: t)
    else if !inString2 && c = braceClose then
      if braceCount - 1 = 0 then some [c]
      else (extractBlockGo rest (braceCount - 1) inString2 (some c)).map (fun t => c :: t)
    else
      (extractBlockGo rest braceCount inString2 (some c)).map (fun t => c :: t)

/-- `extractBlock(content, startIndex)` from the source: substring from
`startIndex` through the matching closing brace, ignoring braces inside
double-quoted strings; the whole tail when no closing brace is found. -/
def extractBlock (content : List Char) (startIndex : Nat) : List Char :=
  match extractBlockGo (content.drop startIndex) 0 false none with
  | some block => block
  | none => content.drop startIndex

/-- One step of the brace-matching scan state (depth, in-string flag,
previous character), mirroring one iteration of `extractBlock`'s loop. -/
def scanStep (st : Int × Bool × Option Char) (c : Char) : Int × Bool × Option Char :=
  let inS2 := if c = quoteChar && st.2.2 ≠ some backChar then !st.2.1 else st.2.1
  let bc2 :=
    if !inS2 && c = braceOpen then st.1 + 1
    else if !inS2 && c = braceClose then st.1 - 1
    else st.1
  (bc2, inS2, some c)

/-- Position `j` closes the block opened at the start of `cs` when scanned
from state `st`: the character there is a closing brace outside a string and
the running depth reaches zero on it. -/
def closesFrom (st : Int × Bool × Option Char) (cs : List Char) (j : Nat) : Prop :=
  (cs.drop j).head? = some braceClose ∧
  ((cs.take j).foldl scanStep st).1 = 1 ∧
  ((cs.take j).foldl scanStep st).2.1 = false

/-- A matching closing brace exists for the block starting at the head of
`cs`, braces inside double-quoted string literals ignored. -/
def closesAt (cs : List Char) (j : Nat) : Prop :=
  closesFrom (0, false, none) cs j

instance (st : Int × Bool × Option Char) (cs : List Char) (j : Nat) :
    Decidable (closesFrom st cs j) := by
  unfold closesFrom
  infer_instance

/-- Longest prefix satisfying `p` together with the remainder. -/
def spanWhile (p : Char → Bool) : List Char → List Char × List Char
  | [] => ([], [])
  | c :: cs =>
    if p c then
      let t := spanWhile p cs
      (c :: t.1, t.2)
    else ([], c :: cs)

/-- Consume an exact literal, returning the remainder on success. -/
def dropLiteral : List Char → List Char → Option (List Char)
  | [], cs => some cs
  | _ :: _, [] => none
  | l :: ls, c :: cs => if c = l then dropLiteral ls cs else none

/-- The literal `resource` of the declaration regex. -/
def resourceLit : List Char := ['r', 'e', 's', 'o', 'u', 'r', 'c', 'e']

/-- Match the declaration regex `resource\s+([a-zA-Z0-9_]+)\s+'([^']+)'` at
the head of the input, returning the identifier, the type-and-version string,
and the number of characters consumed.  The regex's greedy repetition over
pairwise-disjoint character classes makes maximal munch exact. -/
def matchResourceAt (cs : List Char) : Option (List Char × List Char × Nat) :=
  match dropLiteral resourceLit cs with
  | none => none
  | some r1 =>
    let p1 := spanWhile isWS r1
    if p1.1.isEmpty then none
    else
      let p2 := spanWhile isIdentChar p1.2
      if p2.1.isEmpty then none
      else
        let p3 := spanWhile isWS p2.2
        if p3.1.isEmpty then none
        else
          match p3.2 with
          | c :: r4 =>
            if c = tickChar then
              let p4 := spanWhile (fun d => !(d = tickChar)) r4
              if p4.1.isEmpty then none
              else
                match p4.2 with
                | d :: _ =>
                  if d = tickChar then
                    some (p2.1, p4.1,
                      resourceLit.length + p1.1.length + p2.1.length + p3.1.length +
                        1 + p4.1.length + 1)
                  else none
                | [] => none
            else none
          | [] => none

/-- Leftmost match of the declaration regex: offset of the match start, the
two capture groups, and the offset one past the match end. -/
def execFrom : List Char → Option (Nat × List Char × List Char × Nat)
  | [] => none
  | c :: rest =>
    match matchResourceAt (c :: rest) with
    | some (ident, tv, n) => some (0, ident, tv, n)
    | none =>
      (execFrom rest).map (fun r => (r.1 + 1, r.2.1, r.2.2.1, r.2.2.2 + 1))

/-- First index of an opening brace, as used by `indexOf('{', match.index)`. -/
def idxOfBrace : List Char → Option Nat
  | [] => none
  | c :: rest =>
    if c = braceOpen then some 0
    else (idxOfBrace rest).map (fun i => i + 1)

/-- Split a list at the first occurrence of a separator character, as the
first two components of `String.prototype.split`. -/
def splitFirst (sep : Char) : List Char → List Char × Option (List Char)
  | [] => ([], none)
  | c :: rest =>
    if c = sep then ([], some (spanWhile (fun d => !(d = sep)) rest).1)
    else
      let t := splitFirst sep rest
      (c :: t.1, t.2)

/-- Drop trailing characters satisfying `p` (the `trimEnd` of a line). -/
def trimEndWhile (p : Char → Bool) (l : List Char) : List Char :=
  (List.dropWhile p l.reverse).reverse

/-- Split into lines at newline characters (`body.split('\n')`). -/
def splitLines : List Char → List (List Char)
  | [] => [[]]
  | c :: rest =>
    if c = newlineChar then [] :: splitLines rest
    else
      match splitLines rest with
      | [] => [[c]]
      | l :: ls => (c :: l) :: ls

/-- Match the top-level property regex `^\s{2,}([a-zA-Z0-9_]+)\s*:` against a
line, returning the property name. -/
def matchProp (line : List Char) : Option (List Char) :=
  let p1 := spanWhile isWS line
  if p1.1.length < 2 then none
  else
    let p2 := spanWhile isIdentChar p1.2
    if p2.1.isEmpty then none
    else
      let p3 := spanWhile isWS p2.2
      match p3.2 with
      | c :: _ => if c = ':' then some p2.1 else none
      | [] => none

/-- `extractProperties` from the source: walk the body's lines keeping a
running brace depth, collecting property names on lines at depth at most one,
deduplicated. -/
def extractProperties (body : List Char) : List (List Char) :=
  let step := fun (st : Int × List (List Char)) (rawLine : List Char) =>
    let line := trimEndWhile isWS rawLine
    if line.isEmpty then st
    else
      let depth := st.1 + (line.filter (fun c => c = braceOpen)).length -
        (line.filter (fun c => c = braceClose)).length
      if depth ≤ 1 then
        match matchProp line with
        | some key => if key ∈ st.2 then (depth, st.2) else (depth, st.2 ++ [key])
        | none => (depth, st.2)
      else (depth, st.2)
  ((splitLines body).foldl step (0, [])).2

/-- A parsed resource snippet, from `BicepResourceSnippet` (the catalog
mapping fields `iconTitle`/`serviceName` come from a module outside the
visible sources and no claim references them). -/
structure Resource where
  name : List Char
  type : List Char
  apiVersion : Option (List Char)
  fullText : List Char
  body : List Char
  properties : List (List Char)
deriving DecidableEq, Repr

/-- Build one resource record from a declaration match and its body, as the
push inside `parseBicepResources`'s loop. -/
def mkResource (ident tv body : List Char) : Resource :=
  let sp := splitFirst atChar tv
  let resourceType := sp.1
  let apiVersion := sp.2
  let decoratedType :=
    match apiVersion with
    | some v => if v.isEmpty then resourceType else resourceType ++ [atChar] ++ v
    | none => resourceType
  let declaration := resourceLit ++ [' '] ++ ident ++ [' ', tickChar] ++ decoratedType ++
    [tickChar, ' ', '=', ' ']
  { name := ident,
    type := resourceType,
    apiVersion := apiVersion,
    fullText := declaration ++ body,
    body := body,
    properties := extractProperties body }

/-- The regex-exec loop of `parseBicepResources`: repeatedly find the next
declaration, locate the body's opening brace from the match start, extract
the block, and continue after the match end.  The fuel argument makes the
recursion structural; each iteration consumes at least one character, so a
fuel of one more than the input length never truncates. -/
def parseLoop : Nat → List Char → List Resource
  | 0, _ => []
  | fuel + 1, cs =>
    match execFrom cs with
    | none => []
    | some (off, ident, tv, e) =>
      match idxOfBrace (cs.drop off) with
      | none => parseLoop fuel (cs.drop e)
      | some bs =>
        let body := extractBlock (cs.drop off) bs
        mkResource ident tv body :: parseLoop fuel (cs.drop e)

/-- `parseBicepResources` from the source: empty for blank input, otherwise
the resources found by the declaration-regex loop. -/
def parseBicepResources (template : List Char) : List Resource :=
  if (template.filter (fun c => !isWS c)).isEmpty then []
  else parseLoop (template.length + 1) template

end Bicep

namespace Patterns

/-!
Part 3: embedding of the arrow connection pattern of `patterns.ts`:
the regular expression (entity)\s*(two-way arrow | simple arrow | unicode
arrow)\s*(entity), where an entity matches one-or-more word runs separated by
whitespace.  The arrow alternation of the source is the literal three-token
list below; greedy matching is exact here because no arrow token begins with
a word or whitespace character, so the regex engine's backtracking can never
produce a match that maximal munch misses.
-/

/-- The word-character class `\w` of the JavaScript regex. -/
def isWordChar (c : Char) : Bool := Bicep.isIdentChar c

/-- The two-way arrow token of the source alternation: `<-->`. -/
def bidiTok : List Char := ['<', '-', '-', '>']

/-- The simple arrow token of the source alternation: `->`. -/
def simpleTok : List Char := ['-', '>']

/-- The unicode arrow token of the source alternation. -/
def uniTok : List Char := ['→']

/-- Join word runs with single spaces, the shape of an entity phrase. -/
def joinWords : List (List Char) → List Char
  | [] => []
  | [w] => w
  | w :: ws => w ++ ' ' :: joinWords ws

/-- Extension part of an entity: repetitions of `\s+\w+` after the first word
run, returning the consumed characters and the remainder.  Fuel makes the
recursion structural; each repetition consumes at least two characters. -/
def wordSeqExt : Nat → List Char → List Char × List Char
  | 0, cs => ([], cs)
  | fuel + 1, cs =>
    let p1 := Bicep.spanWhile Bicep.isWS cs
    if p1.1.isEmpty then ([], cs)
    else
      let p2 := Bicep.spanWhile isWordChar p1.2
      if p2.1.isEmpty then ([], cs)
      else
        let p3 := wordSeqExt fuel p2.2
        (p1.1 ++ p2.1 ++ p3.1, p3.2)

/-- An entity `\w+(?:\s+\w+)*` at the head of the input: the matched entity
and the remainder, or `none` when the input does not start with a word
character. -/
def wordSeqAt (cs : List Char) : Option (List Char × List Char) :=
  let p1 := Bicep.spanWhile isWordChar cs
  if p1.1.isEmpty then none
  else
    let p2 := wordSeqExt p1.2.length p1.2
    some (p1.1 ++ p2.1, p2.2)

/-- Consume one arrow token, trying the alternatives in the source's order. -/
def arrowAfter (cs : List Char) : Option (List Char) :=
  match Bicep.dropLiteral bidiTok cs with
  | some r => some r
  | none =>
    match Bicep.dropLiteral simpleTok cs with
    | some r => some r
    | none => Bicep.dropLiteral uniTok cs

/-- Match the whole arrow pattern at the head of the input, returning the two
entity capture groups. -/
def matchArrowAt (cs : List Char) : Option (List Char × List Char) :=
  match wordSeqAt cs with
  | none => none
  | some (e1, r1) =>
    let r2 := (Bicep.spanWhile Bicep.isWS r1).2
    match arrowAfter r2 with
    | none => none
    | some r3 =>
      let r4 := (Bicep.spanWhile Bicep.isWS r3).2
      match wordSeqAt r4 with
      | none => none
      | some (e2, _) => some (e1, e2)

/-- Leftmost match of the arrow pattern anywhere in the text, as the regex
engine's scan. -/
def findArrow : List Char → Option (List Char × List Char)
  | [] => none
  | c :: rest =>
    match matchArrowAt (c :: rest) with
    | some r => some r
    | none => findArrow rest

end Patterns

namespace Bicep

/-- The previous-character register of `extractBlock`'s loop after scanning
`xs`, starting from `p`. -/
def prevOpt (p : Option Char) : List Char → Option Char
  | [] => p
  | c :: cs => prevOpt (some c) cs

instance (cs : List Char) (j : Nat) : Decidable (closesAt cs j) := by
  unfold closesAt
  infer_instance

theorem spanWhile_cons_pos {p : Char → Bool} {c : Char} (cs : List Char) (h : p c = true) :
    spanWhile p (c :: cs) = (c :: (spanWhile p cs).1, (spanWhile p cs).2) := by
  simp [spanWhile, h]

theorem spanWhile_cons_neg {p : Char → Bool} {c : Char} (cs : List Char) (h : p c = false) :
    spanWhile p (c :: cs) = ([], c :: cs) := by
  simp [spanWhile, h]

theorem spanWhile_append_all {p : Char → Bool} {xs : List Char}
    (h : ∀ c ∈ xs, p c = true) (rest : List Char) :
    spanWhile p (xs ++ rest) = (xs ++ (spanWhile p rest).1, (spanWhile p rest).2) := by
  induction xs with
  | nil => simp
  | cons c cs ih =>
    have hc : p c = true := h c (by simp)
    have ih2 := ih (fun d hd => h d (by simp [hd]))
    simp only [List.cons_append, spanWhile_cons_pos _ hc, ih2]

theorem spanWhile_stop {p : Char → Bool} {xs : List Char} {c : Char}
    (hxs : ∀ d ∈ xs, p d = true) (hc : p c = false) (rest : List Char) :
    spanWhile p (xs ++ c :: rest) = (xs, c :: rest) := by
  rw [spanWhile_append_all hxs, spanWhile_cons_neg _ hc]
  simp

theorem spanWhile_head_false {p : Char → Bool} {cs : List Char} {c : Char}
    (h : (spanWhile p cs).2.head? = some c) : p c = false := by
  induction cs with
  | nil => simp [spanWhile] at h
  | cons d rest ih =>
    by_cases hd : p d = true
    · rw [spanWhile_cons_pos _ hd] at h
      exact ih h
    · rw [spanWhile_cons_neg _ (by simpa using hd)] at h
      simp at h
      rw [← h]
      simpa using hd

theorem dropLiteral_append (lit rest : List Char) :
    dropLiteral lit (lit ++ rest) = some rest := by
  induction lit with
  | nil => simp [dropLiteral]
  | cons c cs ih => simp [dropLiteral, ih]

theorem extractBlockGo_cons (c : Char) (rest : List Char) (bc : Int) (inS : Bool)
    (p : Option Char) :
    extractBlockGo (c :: rest) bc inS p =
      (if !(scanStep (bc, inS, p) c).2.1 && c = braceClose && bc - 1 = 0 then some [c]
       else (extractBlockGo rest (scanStep (bc, inS, p) c).1 (scanStep (bc, inS, p) c).2.1
          (scanStep (bc, inS, p) c).2.2).map (fun t => c :: t)) := by
  have hbb : braceOpen ≠ braceClose := by decide
  have hqo : quoteChar ≠ braceOpen := by decide
  have hqc : quoteChar ≠ braceClose := by decide
  simp only [extractBlockGo, scanStep]
  split_ifs <;> simp_all

theorem extractBlockGo_some_closes :
    ∀ (cs : List Char) (bc : Int) (inS : Bool) (p : Option Char) (b : List Char),
      extractBlockGo cs bc inS p = some b → ∃ j, closesFrom (bc, inS, p) cs j := by
  intro cs
  induction cs with
  | nil => intro bc inS p b h; simp [extractBlockGo] at h
  | cons c rest ih =>
    intro bc inS p b h
    rw [extractBlockGo_cons] at h
    split_ifs at h with hcond
    · simp only [Bool.and_eq_true, Bool.not_eq_true', decide_eq_true_eq] at hcond
      obtain ⟨⟨hflag, hclose⟩, hzero⟩ := hcond
      have hqc : quoteChar ≠ braceClose := by decide
      have hflag2 : inS = false := by
        simp only [scanStep, hclose] at hflag
        have : (braceClose = quoteChar && p ≠ some backChar) = false := by
          simp [hqc.symm]
        rw [this] at hflag
        simpa using hflag
      refine ⟨0, ?_, ?_, ?_⟩
      · simpa using hclose
      · simpa using by omega
      · simpa using hflag2
    · rw [Option.map_eq_some'] at h
      obtain ⟨t, ht, -⟩ := h
      obtain ⟨j, hj⟩ := ih _ _ _ _ ht
      refine ⟨j + 1, ?_, ?_, ?_⟩
      · simpa [List.drop_succ_cons] using hj.1
      · simpa [List.take_succ_cons, List.foldl_cons] using hj.2.1
      · simpa [List.take_succ_cons, List.foldl_cons] using hj.2.2

end Bicep

/-- C10: for every template string and opening-brace position such that no
matching closing brace exists outside double-quoted string literals,
`extractBlock` terminates (it is a total function) and returns the substring
from that position to the end of the template. -/
theorem c10_extractBlock_unbalanced_returns_suffix (content : List Char) (startIndex : Nat)
    (h : ∀ j < (content.drop startIndex).length,
      ¬ Bicep.closesAt (content.drop startIndex) j) :
    Bicep.extractBlock content startIndex = content.drop startIndex := by
  unfold Bicep.extractBlock
  cases hgo : Bicep.extractBlockGo (content.drop startIndex) 0 false none with
  | none => rfl
  | some b =>
    obtain ⟨j, hj⟩ := Bicep.extractBlockGo_some_closes _ _ _ _ _ hgo
    have hlt : j < (content.drop startIndex).length := by
      by_contra hge
      have hnil : (content.drop startIndex).drop j = [] :=
        List.drop_eq_nil_of_le (le_of_not_lt hge)
      have := hj.1
      rw [hnil] at this
      simp at this
    exact absurd hj (h j hlt)

/-- Witness for C10 at a concrete unbalanced template. -/
theorem c10_witness :
    (∀ j < ((['x', Bicep.braceOpen, ' ', 'a'] : List Char).drop 1).length,
      ¬ Bicep.closesAt ((['x', Bicep.braceOpen, ' ', 'a'] : List Char).drop 1) j) ∧
    Bicep.extractBlock ['x', Bicep.braceOpen, ' ', 'a'] 1 =
      (['x', Bicep.braceOpen, ' ', 'a'] : List Char).drop 1 :=
  ⟨by decide, c10_extractBlock_unbalanced_returns_suffix ['x', Bicep.braceOpen, ' ', 'a'] 1
    (by decide)⟩

/-- C9: for every template string that is empty or consists only of
whitespace, `parseBicepResources` returns the empty resource list (and, being
a total function, raises no error). -/
theorem c9_parseBicepResources_blank (t : List Char) (h : ∀ c ∈ t, Bicep.isWS c = true) :
    Bicep.parseBicepResources t = [] := by
  have hf : t.filter (fun c => !Bicep.isWS c) = [] := by
    rw [List.filter_eq_nil]
    intro c hc
    simp [h c hc]
  simp [Bicep.parseBicepResources, hf]

/-- Witness for C9 at a concrete whitespace-only template. -/
theorem c9_witness :
    (∀ c ∈ ([' ', Char.ofNat 10, ' '] : List Char), Bicep.isWS c = true) ∧
    Bicep.parseBicepResources [' ', Char.ofNat 10, ' '] = [] :=
  ⟨by decide, c9_parseBicepResources_blank [' ', Char.ofNat 10, ' '] (by decide)⟩

/-- C6: for every input value that is not an object with a services array,
`parseStructuredDiagram` returns null rather than throwing (the modelled
function is total), so the caller can fall back to text parsing. -/
theorem c6_parseStructuredDiagram_null_on_bad_shape (p : AzViz.LoosePayload)
    (h : p.isObject = false ∨ p.services = none) :
    AzViz.parseStructuredDiagram p = none := by
  unfold AzViz.parseStructuredDiagram
  rcases h with h | h
  · simp [h]
  · cases ho : p.isObject
    · simp
    · simp [h]

/-- Witness for C6 at a concrete non-object input. -/
theorem c6_witness :
    AzViz.parseStructuredDiagram ⟨false, none, none, none⟩ = none :=
  c6_parseStructuredDiagram_null_on_bad_shape ⟨false, none, none, none⟩ (Or.inl rfl)

/-- C8 counterexample: the text `A --> B` contains an entity, the arrow token
of two dashes, and an entity, yet the arrow pattern family of the source
matches nothing in it (the source alternation is the two-way arrow, the
single-dash arrow, and the unicode arrow; a double-dash arrow is not
matched). -/
theorem c8_counterexample_dashdash_arrow_unmatched :
    Patterns.findArrow ("A --> B".data) = none := by decide

namespace Patterns

theorem word_not_ws (c : Char) (h : isWordChar c = true) : Bicep.isWS c = false := by
  simp only [isWordChar, Bicep.isIdentChar, Bool.or_eq_true, Bool.and_eq_true,
    decide_eq_true_eq] at h
  simp only [Bicep.isWS, Bool.or_eq_false_iff, decide_eq_false_iff_not]
  omega

theorem wordSeqExt_stop (fuel : Nat) (rest : List Char)
    (hr : ∀ c, ((Bicep.spanWhile Bicep.isWS rest).2).head? = some c → isWordChar c = false) :
    wordSeqExt fuel rest = ([], rest) := by
  cases fuel with
  | zero => rfl
  | succ f =>
    simp only [wordSeqExt]
    by_cases h1 : (Bicep.spanWhile Bicep.isWS rest).1.isEmpty
    · simp [h1]
    · have h2 : (Bicep.spanWhile isWordChar (Bicep.spanWhile Bicep.isWS rest).2).1 = [] := by
        cases hh : (Bicep.spanWhile Bicep.isWS rest).2 with
        | nil => simp [Bicep.spanWhile]
        | cons c cs2 =>
          have hc := hr c (by rw [hh]; rfl)
          rw [Bicep.spanWhile_cons_neg _ hc]
      simp [h1, h2]

theorem joinWords_length (ws : List (List Char)) (hw : ∀ w ∈ ws, w ≠ []) :
    ws.length ≤ (joinWords ws).length := by
  induction ws with
  | nil => simp
  | cons w ws2 ih =>
    cases ws2 with
    | nil =>
      have h1 : w ≠ [] := hw w (by simp)
      have h2 : 0 < w.length := List.length_pos.mpr h1
      simp only [joinWords, List.length_cons, List.length_nil]
      omega
    | cons x xs =>
      have ih2 := ih (fun v hv => hw v (by simp [hv]))
      simp only [joinWords, List.length_cons, List.length_append]
      simp at ih2 ⊢
      omega

theorem joinWords_head_word (ws : List (List Char)) (hne : ws ≠ [])
    (hw : ∀ w ∈ ws, w ≠ [] ∧ ∀ c ∈ w, isWordChar c = true) :
    ∃ c t, joinWords ws = c :: t ∧ isWordChar c = true := by
  cases ws with
  | nil => exact absurd rfl hne
  | cons w ws2 =>
    obtain ⟨hwne, hwall⟩ := hw w (by simp)
    cases w with
    | nil => exact absurd rfl hwne
    | cons c w2 =>
      refine ⟨c, ?_, ?_, hwall c (by simp)⟩
      · cases ws2 with
        | nil => exact w2
        | cons x xs => exact w2 ++ ' ' :: joinWords (x :: xs)
      · cases ws2 with
        | nil => rfl
        | cons x xs => rfl

theorem wordSeqExt_join (ws : List (List Char)) (rest : List Char) :
    ∀ fuel : Nat, ws ≠ [] →
    (∀ w ∈ ws, w ≠ [] ∧ ∀ c ∈ w, isWordChar c = true) →
    (∀ c, rest.head? = some c → isWordChar c = false) →
    (∀ c, ((Bicep.spanWhile Bicep.isWS rest).2).head? = some c → isWordChar c = false) →
    ws.length ≤ fuel →
    wordSeqExt fuel (' ' :: (joinWords ws ++ rest)) = (' ' :: joinWords ws, rest) := by
  induction ws with
  | nil => intro fuel hne; exact absurd rfl hne
  | cons w ws2 ih =>
    intro fuel hne hw hr1 hr2 hfuel
    obtain ⟨hwne, hwall⟩ := hw w (by simp)
    cases fuel with
    | zero => simp at hfuel
    | succ f =>
      have hsp1 : Bicep.spanWhile Bicep.isWS (' ' :: (joinWords (w :: ws2) ++ rest)) =
          ([' '], joinWords (w :: ws2) ++ rest) := by
        rw [Bicep.spanWhile_cons_pos _ (by decide)]
        obtain ⟨c, t, hj, hc⟩ := joinWords_head_word (w :: ws2) (by simp) hw
        rw [hj]
        rw [List.cons_append, Bicep.spanWhile_cons_neg _ (word_not_ws c hc)]
      cases ws2 with
      | nil =>
        have hsp2 : Bicep.spanWhile isWordChar (joinWords [w] ++ rest) = (w, rest) := by
          show Bicep.spanWhile isWordChar (w ++ rest) = (w, rest)
          cases rest with
          | nil =>
            rw [Bicep.spanWhile_append_all hwall]
            simp [Bicep.spanWhile]
          | cons r rs =>
            exact Bicep.spanWhile_stop hwall (hr1 r rfl) rs
        have hext : wordSeqExt f rest = ([], rest) := wordSeqExt_stop f rest hr2
        simp only [wordSeqExt, hsp1, hsp2, hext]
        simp [hwne, joinWords]
      | cons x xs =>
        have hw2 : ∀ v ∈ x :: xs, v ≠ [] ∧ ∀ c ∈ v, isWordChar c = true :=
          fun v hv => hw v (by simp [hv])
        have hjoin : joinWords (w :: x :: xs) = w ++ ' ' :: joinWords (x :: xs) := rfl
        have hsp2 : Bicep.spanWhile isWordChar (joinWords (w :: x :: xs) ++ rest) =
            (w, ' ' :: (joinWords (x :: xs) ++ rest)) := by
          rw [hjoin, List.append_assoc, List.cons_append]
          exact Bicep.spanWhile_stop hwall (by decide) _
        have hext := ih f (by simp) hw2 hr1 hr2 (by simp at hfuel ⊢; omega)
        simp only [wordSeqExt, hsp1, hsp2, hext]
        simp [hwne, hjoin]

theorem wordSeqAt_join (ws : List (List Char)) (rest : List Char) (hne : ws ≠ [])
    (hw : ∀ w ∈ ws, w ≠ [] ∧ ∀ c ∈ w, isWordChar c = true)
    (hr1 : ∀ c, rest.head? = some c → isWordChar c = false)
    (hr2 : ∀ c, ((Bicep.spanWhile Bicep.isWS rest).2).head? = some c → isWordChar c = false) :
    wordSeqAt (joinWords ws ++ rest) = some (joinWords ws, rest) := by
  cases ws with
  | nil => exact absurd rfl hne
  | cons w ws2 =>
    obtain ⟨hwne, hwall⟩ := hw w (by simp)
    cases ws2 with
    | nil =>
      have hsp : Bicep.spanWhile isWordChar (joinWords [w] ++ rest) = (w, rest) := by
        show Bicep.spanWhile isWordChar (w ++ rest) = (w, rest)
        cases rest with
        | nil =>
          rw [Bicep.spanWhile_append_all hwall]
          simp [Bicep.spanWhile]
        | cons r rs => exact Bicep.spanWhile_stop hwall (hr1 r rfl) rs
      have hext : wordSeqExt rest.length rest = ([], rest) :=
        wordSeqExt_stop rest.length rest hr2
      simp only [wordSeqAt, hsp, hext]
      simp [hwne, joinWords]
    | cons x xs =>
      have hw2 : ∀ v ∈ x :: xs, v ≠ [] ∧ ∀ c ∈ v, isWordChar c = true :=
        fun v hv => hw v (by simp [hv])
      have hjoin : joinWords (w :: x :: xs) = w ++ ' ' :: joinWords (x :: xs) := rfl
      have hsp : Bicep.spanWhile isWordChar (joinWords (w :: x :: xs) ++ rest) =
          (w, ' ' :: (joinWords (x :: xs) ++ rest)) := by
        rw [hjoin, List.append_assoc, List.cons_append]
        exact Bicep.spanWhile_stop hwall (by decide) _
      have hlen : (x :: xs).length ≤ (' ' :: (joinWords (x :: xs) ++ rest)).length := by
        have := joinWords_length (x :: xs) (fun v hv => (hw2 v hv).1)
        simp only [List.length_cons, List.length_append] at this ⊢
        omega
      have hext := wordSeqExt_join (x :: xs) rest
        (' ' :: (joinWords (x :: xs) ++ rest)).length (by simp) hw2 hr1 hr2 hlen
      simp only [wordSeqAt, hsp, hext]
      simp [hwne, hjoin]

end Patterns

namespace Patterns

theorem findArrow_shape (ws1 ws2 : List (List Char)) (arrow : List Char)
    (h1 : ws1 ≠ []) (hw1 : ∀ w ∈ ws1, w ≠ [] ∧ ∀ c ∈ w, isWordChar c = true)
    (h2 : ws2 ≠ []) (hw2 : ∀ w ∈ ws2, w ≠ [] ∧ ∀ c ∈ w, isWordChar c = true)
    (hne : arrow ≠ [])
    (hhead : ∀ c, arrow.head? = some c → Bicep.isWS c = false ∧ isWordChar c = false)
    (hdrop : arrowAfter (arrow ++ ' ' :: joinWords ws2) = some (' ' :: joinWords ws2)) :
    findArrow (joinWords ws1 ++ ' ' :: (arrow ++ ' ' :: joinWords ws2)) =
      some (joinWords ws1, joinWords ws2) := by
  obtain ⟨a, ar, harr⟩ : ∃ a ar, arrow = a :: ar := by
    cases arrow with
    | nil => exact absurd rfl hne
    | cons a ar => exact ⟨a, ar, rfl⟩
  obtain ⟨haW, haNW⟩ := hhead a (by rw [harr]; rfl)
  have hspan : Bicep.spanWhile Bicep.isWS (' ' :: (arrow ++ ' ' :: joinWords ws2)) =
      ([' '], arrow ++ ' ' :: joinWords ws2) := by
    rw [Bicep.spanWhile_cons_pos _ (by decide)]
    rw [harr, List.cons_append, Bicep.spanWhile_cons_neg _ haW]
  have hr1 : ∀ c, (' ' :: (arrow ++ ' ' :: joinWords ws2)).head? = some c →
      isWordChar c = false := by
    intro c hc
    simp only [List.head?_cons, Option.some_inj] at hc
    rw [← hc]
    decide
  have hr2 : ∀ c,
      ((Bicep.spanWhile Bicep.isWS (' ' :: (arrow ++ ' ' :: joinWords ws2))).2).head? =
        some c → isWordChar c = false := by
    intro c hc
    rw [hspan, harr, List.cons_append] at hc
    simp only [List.head?_cons, Option.some_inj] at hc
    rw [← hc]
    exact haNW
  have hA := wordSeqAt_join ws1 (' ' :: (arrow ++ ' ' :: joinWords ws2)) h1 hw1 hr1 hr2
  have hsp3 : Bicep.spanWhile Bicep.isWS (' ' :: joinWords ws2) = ([' '], joinWords ws2) := by
    rw [Bicep.spanWhile_cons_pos _ (by decide)]
    obtain ⟨c2, t2, hj2, hc2⟩ := joinWords_head_word ws2 h2 hw2
    rw [hj2, Bicep.spanWhile_cons_neg _ (word_not_ws c2 hc2)]
  have hB : wordSeqAt (joinWords ws2) = some (joinWords ws2, []) := by
    have := wordSeqAt_join ws2 [] h2 hw2 (by intro c hc; simp at hc)
      (by intro c hc; simp [Bicep.spanWhile] at hc)
    simpa using this
  have hm : matchArrowAt (joinWords ws1 ++ ' ' :: (arrow ++ ' ' :: joinWords ws2)) =
      some (joinWords ws1, joinWords ws2) := by
    simp only [matchArrowAt, hA, hspan, hdrop, hsp3, hB]
  obtain ⟨c1, t1, hj1, -⟩ := joinWords_head_word ws1 h1 hw1
  rw [hj1, List.cons_append] at hm ⊢
  simp [findArrow, hm]

end Patterns

/-- C8 (amended): for every text of the form entity-arrow-entity where the
arrow token is one of the source alternation's tokens - the two-way arrow
`<` `-` `-` `>`, the simple arrow `-` `>`, or the unicode arrow - the arrow
pattern family matches and yields the two entities; the double-dash arrow of
the claim is not in the alternation (see the counterexample). -/
theorem c8_amended_arrow_patterns (ws1 ws2 : List (List Char)) (arrow : List Char)
    (h1 : ws1 ≠ [])
    (hw1 : ∀ w ∈ ws1, w ≠ [] ∧ ∀ c ∈ w, Patterns.isWordChar c = true)
    (h2 : ws2 ≠ [])
    (hw2 : ∀ w ∈ ws2, w ≠ [] ∧ ∀ c ∈ w, Patterns.isWordChar c = true)
    (ha : arrow = Patterns.bidiTok ∨ arrow = Patterns.simpleTok ∨ arrow = Patterns.uniTok) :
    Patterns.findArrow
      (Patterns.joinWords ws1 ++ ' ' :: (arrow ++ ' ' :: Patterns.joinWords ws2)) =
      some (Patterns.joinWords ws1, Patterns.joinWords ws2) := by
  rcases ha with rfl | rfl | rfl
  · refine Patterns.findArrow_shape ws1 ws2 _ h1 hw1 h2 hw2 (by decide) ?_ ?_
    · intro c hc
      simp only [Patterns.bidiTok, List.head?_cons, Option.some_inj] at hc
      rw [← hc]
      exact ⟨by decide, by decide⟩
    · simp [Patterns.arrowAfter, Bicep.dropLiteral_append]
  · refine Patterns.findArrow_shape ws1 ws2 _ h1 hw1 h2 hw2 (by decide) ?_ ?_
    · intro c hc
      simp only [Patterns.simpleTok, List.head?_cons, Option.some_inj] at hc
      rw [← hc]
      exact ⟨by decide, by decide⟩
    · simp [Patterns.arrowAfter, Patterns.bidiTok, Patterns.simpleTok, Bicep.dropLiteral]
  · refine Patterns.findArrow_shape ws1 ws2 _ h1 hw1 h2 hw2 (by decide) ?_ ?_
    · intro c hc
      simp only [Patterns.uniTok, List.head?_cons, Option.some_inj] at hc
      rw [← hc]
      exact ⟨by decide, by decide⟩
    · simp [Patterns.arrowAfter, Patterns.bidiTok, Patterns.simpleTok, Patterns.uniTok,
        Bicep.dropLiteral]

/-- Witness for the amended C8 at the concrete text `A -> B`. -/
theorem c8_amended_witness :
    Patterns.findArrow (Patterns.joinWords [['A']] ++ ' ' ::
      (Patterns.simpleTok ++ ' ' :: Patterns.joinWords [['B']])) =
      some (Patterns.joinWords [['A']], Patterns.joinWords [['B']]) :=
  c8_amended_arrow_patterns [['A']] [['B']] Patterns.simpleTok (by decide)
    (by decide) (by decide) (by decide) (Or.inr (Or.inl rfl))

namespace AzViz

theorem dfsWork_kind_group (table : List ParsedGroup) :
    ∀ (fuel : Nat) (visited : List String) (work : List (ParsedGroup × Option String))
      (n : DiagramNode), n ∈ dfsWork table fuel visited work → n.kind = NodeKind.group := by
  intro fuel
  induction fuel with
  | zero => intro visited work n h; simp [dfsWork] at h
  | succ f ih =>
    intro visited work n h
    cases work with
    | nil => simp [dfsWork] at h
    | cons gp rest =>
      obtain ⟨g, parent⟩ := gp
      rw [dfsWork] at h
      split_ifs at h with hv
      · exact ih visited rest n h
      · rcases List.mem_cons.mp h with h | h
        · rw [h]
        · exact ih _ _ n h

theorem filter_length_one_of_nodup_map {α β : Type} [BEq β] [LawfulBEq β]
    (f : α → β) (l : List α) (a : α)
    (hn : (l.map f).Nodup) (ha : a ∈ l) :
    (l.filter (fun x => f x == f a)).length = 1 := by
  induction l with
  | nil => simp at ha
  | cons b l2 ih =>
    simp only [List.map_cons, List.nodup_cons] at hn
    by_cases hb : f b = f a
    · have hrest : l2.filter (fun x => f x == f a) = [] := by
        rw [List.filter_eq_nil]
        intro x hx
        simp only [beq_iff_eq]
        intro hfx
        exact hn.1 (by rw [← hb] at hfx; exact hfx ▸ List.mem_map_of_mem f hx)
      simp [List.filter_cons, hb, hrest]
    · have ha2 : a ∈ l2 := by
        rcases List.mem_cons.mp ha with rfl | h
        · exact absurd rfl hb
        · exact h
      have := ih hn.2 ha2
      simp only [List.filter_cons, beq_iff_eq, hb]
      simpa [hb] using this

theorem filter_service_nodes (l : List ModelService) (table : List ParsedGroup)
    (sid : String) :
    ((l.map (fun t =>
        (⟨t.id, NodeKind.service, innerParent table t.id, t.title⟩ : DiagramNode))).filter
      (fun n => n.kind == NodeKind.service && n.id == sid)).length =
      (l.filter (fun t => t.id == sid)).length := by
  induction l with
  | nil => simp
  | cons t l2 ih =>
    by_cases ht : t.id = sid
    · simp [List.filter_cons, ht, ih]
    · simp [List.filter_cons, ht, ih]

/-- C1: for every ParsedArchitecture (cyclic group references included, as in
the repository's cyclic-fixture test), `generateNodes` is a total function
returning a finite node list that contains a service node for every input
service exactly once. -/
theorem c1_generateNodes_each_service_once (arch : ParsedArchitecture)
    (hn : (arch.services.map (fun s => s.id)).Nodup)
    (s : ModelService) (hs : s ∈ arch.services) :
    ((generateNodes arch).filter
      (fun n => n.kind == NodeKind.service && n.id == s.id)).length = 1 := by
  have hg : ∀ (l : List DiagramNode), (∀ n ∈ l, n.kind = NodeKind.group) →
      l.filter (fun n => n.kind == NodeKind.service && n.id == s.id) = [] := by
    intro l hl
    rw [List.filter_eq_nil]
    intro n hn2
    simp [hl n hn2]
  have hone := filter_length_one_of_nodup_map (fun t : ModelService => t.id)
    arch.services s hn hs
  simp only [generateNodes]
  rw [List.filter_append, List.filter_append]
  rw [hg _ (fun n h => dfsWork_kind_group arch.groups _ _ _ n h)]
  rw [hg _ (by
    intro n h
    obtain ⟨g, -, rfl⟩ := List.mem_map.mp h
    rfl)]
  simp only [List.nil_append, List.length_nil]
  rw [filter_service_nodes arch.services arch.groups s.id]
  exact hone

end AzViz

/-- Witness for C1 at the repository's cyclic-group test fixture: two groups
that each list the other both as a member and as parent. -/
theorem c1_witness :
    ((AzViz.generateNodes
        ⟨[⟨"svc-1", "Service One"⟩, ⟨"svc-2", "Service Two"⟩], [], .horizontal,
         [⟨"group-a", "Group A", .resourceGroup, ["group-b", "svc-1"], some "group-b", none⟩,
          ⟨"group-b", "Group B", .resourceGroup, ["group-a", "svc-2"], some "group-a",
            none⟩]⟩).filter
      (fun n => n.kind == AzViz.NodeKind.service && n.id == "svc-1")).length = 1 :=
  AzViz.c1_generateNodes_each_service_once _ (by decide) ⟨"svc-1", "Service One"⟩ (by decide)

namespace AzViz

theorem mem_addUnique {acc : List String} {x y : String} :
    y ∈ addUnique acc x ↔ y ∈ acc ∨ y = x := by
  unfold addUnique
  split_ifs with h
  · constructor
    · exact fun hy => Or.inl hy
    · rintro (hy | rfl)
      · exact hy
      · exact h
  · simp

theorem nodup_addUnique {acc : List String} {x : String} (h : acc.Nodup) :
    (addUnique acc x).Nodup := by
  unfold addUnique
  split_ifs with hx
  · exact h
  · simp [List.nodup_append, h, hx]

theorem mem_mergeIds {y : String} :
    ∀ (b a : List String), y ∈ mergeIds a b ↔ y ∈ a ∨ y ∈ b := by
  intro b
  induction b with
  | nil => simp [mergeIds]
  | cons x xs ih =>
    intro a
    show y ∈ xs.foldl addUnique (addUnique a x) ↔ _
    rw [show xs.foldl addUnique (addUnique a x) = mergeIds (addUnique a x) xs from rfl,
      ih (addUnique a x), mem_addUnique]
    simp only [List.mem_cons]
    tauto

theorem nodup_mergeIds : ∀ (b a : List String), a.Nodup → (mergeIds a b).Nodup := by
  intro b
  induction b with
  | nil => intro a h; exact h
  | cons x xs ih =>
    intro a h
    exact ih (addUnique a x) (nodup_addUnique h)

theorem mergeIds_eq_self : ∀ (b a : List String), (∀ x ∈ b, x ∈ a) → mergeIds a b = a := by
  intro b
  induction b with
  | nil => intro a _; rfl
  | cons x xs ih =>
    intro a h
    show xs.foldl addUnique (addUnique a x) = a
    have hx : addUnique a x = a := by
      unfold addUnique
      rw [if_pos (h x (by simp))]
    rw [hx]
    exact ih a (fun v hv => h v (by simp [hv]))

theorem mergeIds_append_of_nodup :
    ∀ (b a : List String), (a ++ b).Nodup → mergeIds a b = a ++ b := by
  intro b
  induction b with
  | nil => intro a _; simp [mergeIds]
  | cons x xs ih =>
    intro a h
    have hx : x ∉ a := by
      intro hmem
      have := List.disjoint_of_nodup_append h hmem
      simp at this
    show xs.foldl addUnique (addUnique a x) = a ++ x :: xs
    have h1 : addUnique a x = a ++ [x] := by
      unfold addUnique
      rw [if_neg hx]
    rw [h1]
    have h2 : (a ++ [x]) ++ xs = a ++ x :: xs := by simp
    rw [show xs.foldl addUnique (a ++ [x]) = mergeIds (a ++ [x]) xs from rfl,
      ih (a ++ [x]) (by rw [h2]; exact h), h2]

theorem dedupIds_eq_self {l : List String} (h : l.Nodup) : dedupIds l = l := by
  unfold dedupIds
  have := mergeIds_append_of_nodup l [] (by simpa using h)
  simpa using this

theorem mem_dedupIds {y : String} {l : List String} : y ∈ dedupIds l ↔ y ∈ l := by
  unfold dedupIds
  rw [mem_mergeIds]
  simp

theorem nodup_dedupIds (l : List String) : (dedupIds l).Nodup :=
  nodup_mergeIds l [] (by simp)

theorem addService_map_id_of_present (acc : List RawService) (s : RawService) :
    (acc.map (fun t =>
      if t.id == s.id then { t with groupIds := mergeIds t.groupIds s.groupIds }
      else t)).map (fun t => t.id) = acc.map (fun t => t.id) := by
  rw [List.map_map]
  apply List.map_congr_left
  intro t _
  by_cases h : t.id = s.id <;> simp [h]

theorem foldl_addService_nodup_ids :
    ∀ (l acc : List RawService), (acc.map (fun t => t.id)).Nodup →
      ((l.foldl addService acc).map (fun t => t.id)).Nodup := by
  intro l
  induction l with
  | nil => intro acc h; exact h
  | cons s l2 ih =>
    intro acc h
    simp only [List.foldl_cons]
    apply ih
    unfold addService
    split_ifs with hp
    · rw [addService_map_id_of_present]
      exact h
    · have hs : s.id ∉ acc.map (fun t => t.id) := by
        intro hmem
        obtain ⟨t, ht, hid⟩ := List.mem_map.mp hmem
        have : acc.any (fun t => t.id == s.id) = true :=
          List.any_eq_true.mpr ⟨t, ht, by simp [hid]⟩
        exact absurd this (by simpa using hp)
      simp [List.nodup_append, h, hs]

theorem dedupServices_nodup_ids (l : List RawService) :
    ((dedupServices l).map (fun t => t.id)).Nodup :=
  foldl_addService_nodup_ids l [] (by simp)

theorem foldl_addService_eq_self :
    ∀ (l acc : List RawService), ((acc ++ l).map (fun t => t.id)).Nodup →
      l.foldl addService acc = acc ++ l := by
  intro l
  induction l with
  | nil => intro acc _; simp
  | cons s l2 ih =>
    intro acc h
    have hs : s.id ∉ acc.map (fun t => t.id) := by
      intro hmem
      rw [List.map_append, List.nodup_append] at h
      obtain ⟨t, ht, hid⟩ := List.mem_map.mp hmem
      exact h.2.2 hmem (by simp [hid])
    simp only [List.foldl_cons]
    have hstep : addService acc s = acc ++ [s] := by
      unfold addService
      rw [if_neg]
      intro hp
      obtain ⟨t, ht, hid⟩ := List.any_eq_true.mp hp
      exact hs (List.mem_map.mpr ⟨t, ht, by simpa using hid⟩)
    rw [hstep]
    have := ih (acc ++ [s]) (by simpa using h)
    simpa using this

theorem dedupServices_eq_self {l : List RawService}
    (h : (l.map (fun t => t.id)).Nodup) : dedupServices l = l := by
  unfold dedupServices
  have := foldl_addService_eq_self l [] (by simpa using h)
  simpa using this

end AzViz

namespace AzViz

theorem applyPatch_id (g : ParsedGroup) (p : GroupPatch) : (applyPatch g p).id = g.id := rfl

theorem applyPatch_parent (g : ParsedGroup) (p : GroupPatch) {x : String}
    (h : (applyPatch g p).parentId = some x) :
    g.parentId = some x ∨ p.parentId = some x := by
  cases hg : g.parentId with
  | none => simp [applyPatch, hg, Option.orElse] at h; exact Or.inr h
  | some w =>
    simp [applyPatch, hg, Option.orElse] at h
    subst h
    exact Or.inl rfl

theorem applyPatch_src (g : ParsedGroup) (p : GroupPatch) {x : String}
    (h : (applyPatch g p).sourceServiceId = some x) :
    g.sourceServiceId = some x ∨ p.sourceServiceId = some x := by
  cases hg : g.sourceServiceId with
  | none => simp [applyPatch, hg, Option.orElse] at h; exact Or.inr h
  | some w =>
    simp [applyPatch, hg, Option.orElse] at h
    subst h
    exact Or.inl rfl

theorem applyPatch_src_mono (g : ParsedGroup) (p : GroupPatch) {x : String}
    (h : g.sourceServiceId = some x) : (applyPatch g p).sourceServiceId = some x := by
  simp [applyPatch, h, Option.orElse]

theorem patchMap_ids (t : List ParsedGroup) (p : GroupPatch) :
    (t.map (fun g => if g.id == p.id then applyPatch g p else g)).map (fun g => g.id) =
      t.map (fun g => g.id) := by
  rw [List.map_map]
  apply List.map_congr_left
  intro g _
  by_cases hg : g.id = p.id <;> simp [hg, applyPatch]

theorem upsert_ids_mem {t : List ParsedGroup} {p : GroupPatch} {i : String} :
    i ∈ (upsertGroup t p).map (fun g => g.id) ↔
      i ∈ t.map (fun g => g.id) ∨ i = p.id := by
  unfold upsertGroup
  split_ifs with hp
  · rw [patchMap_ids]
    constructor
    · exact fun h => Or.inl h
    · rintro (h | rfl)
      · exact h
      · obtain ⟨g, hg, hid⟩ := List.any_eq_true.mp hp
        exact List.mem_map.mpr ⟨g, hg, by simpa using hid⟩
  · simp

theorem upsert_nodup_ids {t : List ParsedGroup} {p : GroupPatch}
    (h : (t.map (fun g => g.id)).Nodup) :
    ((upsertGroup t p).map (fun g => g.id)).Nodup := by
  unfold upsertGroup
  split_ifs with hp
  · rw [patchMap_ids]
    exact h
  · have hid : p.id ∉ t.map (fun g => g.id) := by
      intro hmem
      obtain ⟨g, hg, hi⟩ := List.mem_map.mp hmem
      have hany : t.any (fun g => g.id == p.id) = true :=
        List.any_eq_true.mpr ⟨g, hg, beq_iff_eq.mpr hi⟩
      exact hp hany
    simp [List.nodup_append, h, hid]

theorem upsert_members_origin {t : List ParsedGroup} {p : GroupPatch}
    {g : ParsedGroup} (hg : g ∈ upsertGroup t p) {m : String} (hm : m ∈ g.members) :
    (∃ h ∈ t, h.id = g.id ∧ m ∈ h.members) ∨ (p.id = g.id ∧ m ∈ p.addMembers) := by
  unfold upsertGroup at hg
  split_ifs at hg with hp
  · obtain ⟨h0, hh0, rfl⟩ := List.mem_map.mp hg
    by_cases hid : h0.id = p.id
    · simp only [hid, beq_self_eq_true, if_true] at hm ⊢
      rcases mem_mergeIds p.addMembers h0.members |>.mp (by
        simpa [applyPatch] using hm) with h | h
      · exact Or.inl ⟨h0, hh0, (applyPatch_id h0 p).symm, h⟩
      · exact Or.inr ⟨by rw [applyPatch_id, hid], h⟩
    · simp only [hid, beq_iff_eq, if_neg hid] at hm ⊢
      exact Or.inl ⟨h0, hh0, rfl, hm⟩
  · rcases List.mem_append.mp hg with h | h
    · exact Or.inl ⟨g, h, rfl, hm⟩
    · simp only [List.mem_singleton] at h
      subst h
      exact Or.inr ⟨rfl, mem_dedupIds.mp hm⟩

theorem upsert_parent_origin {t : List ParsedGroup} {p : GroupPatch}
    {g : ParsedGroup} (hg : g ∈ upsertGroup t p) {x : String}
    (hx : g.parentId = some x) :
    (∃ h ∈ t, h.parentId = some x) ∨ p.parentId = some x := by
  unfold upsertGroup at hg
  split_ifs at hg with hp
  · obtain ⟨h0, hh0, rfl⟩ := List.mem_map.mp hg
    by_cases hid : h0.id = p.id
    · simp only [hid, beq_self_eq_true, if_true] at hx
      rcases applyPatch_parent h0 p hx with h | h
      · exact Or.inl ⟨h0, hh0, h⟩
      · exact Or.inr h
    · simp only [beq_iff_eq, if_neg hid] at hx
      exact Or.inl ⟨h0, hh0, hx⟩
  · rcases List.mem_append.mp hg with h | h
    · exact Or.inl ⟨g, h, hx⟩
    · simp only [List.mem_singleton] at h
      subst h
      exact Or.inr hx

theorem upsert_src_origin {t : List ParsedGroup} {p : GroupPatch}
    {g : ParsedGroup} (hg : g ∈ upsertGroup t p) {x : String}
    (hx : g.sourceServiceId = some x) :
    (∃ h ∈ t, h.sourceServiceId = some x) ∨ p.sourceServiceId = some x := by
  unfold upsertGroup at hg
  split_ifs at hg with hp
  · obtain ⟨h0, hh0, rfl⟩ := List.mem_map.mp hg
    by_cases hid : h0.id = p.id
    · simp only [hid, beq_self_eq_true, if_true] at hx
      rcases applyPatch_src h0 p hx with h | h
      · exact Or.inl ⟨h0, hh0, h⟩
      · exact Or.inr h
    · simp only [beq_iff_eq, if_neg hid] at hx
      exact Or.inl ⟨h0, hh0, hx⟩
  · rcases List.mem_append.mp hg with h | h
    · exact Or.inl ⟨g, h, hx⟩
    · simp only [List.mem_singleton] at h
      subst h
      exact Or.inr hx

theorem upsert_members_nodup {t : List ParsedGroup} {p : GroupPatch}
    (h : ∀ g ∈ t, g.members.Nodup) :
    ∀ g ∈ upsertGroup t p, g.members.Nodup := by
  intro g hg
  unfold upsertGroup at hg
  split_ifs at hg with hp
  · obtain ⟨h0, hh0, rfl⟩ := List.mem_map.mp hg
    by_cases hid : h0.id = p.id
    · simp only [hid, beq_self_eq_true, if_true]
      exact nodup_mergeIds _ _ (h h0 hh0)
    · simp only [beq_iff_eq, if_neg hid]
      exact h h0 hh0
  · rcases List.mem_append.mp hg with hh | hh
    · exact h g hh
    · simp only [List.mem_singleton] at hh
      subst hh
      exact nodup_dedupIds _

theorem upsert_mono {t : List ParsedGroup} {p : GroupPatch} {g : ParsedGroup}
    (hg : g ∈ t) :
    ∃ g2 ∈ upsertGroup t p, g2.id = g.id ∧ (∀ m ∈ g.members, m ∈ g2.members) ∧
      (∀ v, g.sourceServiceId = some v → g2.sourceServiceId = some v) := by
  unfold upsertGroup
  split_ifs with hp
  · refine ⟨if g.id == p.id then applyPatch g p else g, List.mem_map_of_mem _ hg, ?_, ?_, ?_⟩
    · by_cases hid : g.id = p.id <;> simp [hid, applyPatch]
    · intro m hm
      by_cases hid : g.id = p.id
      · simp only [hid, beq_self_eq_true, if_true]
        exact (mem_mergeIds p.addMembers g.members).mpr (Or.inl hm)
      · simp only [beq_iff_eq, if_neg hid]
        exact hm
    · intro v hv
      by_cases hid : g.id = p.id
      · simp only [hid, beq_self_eq_true, if_true]
        exact applyPatch_src_mono g p hv
      · simp only [beq_iff_eq, if_neg hid]
        exact hv
  · exact ⟨g, List.mem_append.mpr (Or.inl hg), rfl, fun m hm => hm, fun v hv => hv⟩

theorem upsert_patch_present (t : List ParsedGroup) (p : GroupPatch) :
    ∃ g2 ∈ upsertGroup t p, g2.id = p.id ∧ ∀ m ∈ p.addMembers, m ∈ g2.members := by
  unfold upsertGroup
  split_ifs with hp
  · obtain ⟨g, hg, hid⟩ := List.any_eq_true.mp hp
    have hid2 : g.id = p.id := by simpa using hid
    refine ⟨applyPatch g p, List.mem_map.mpr ⟨g, hg, by simp [hid2]⟩, hid2, ?_⟩
    intro m hm
    exact (mem_mergeIds p.addMembers g.members).mpr (Or.inr hm)
  · refine ⟨⟨p.id, p.label, p.gtype, dedupIds p.addMembers, p.parentId, p.sourceServiceId⟩,
      List.mem_append.mpr (Or.inr (by simp)), rfl, ?_⟩
    intro m hm
    exact mem_dedupIds.mpr hm

theorem upsert_src_set {t : List ParsedGroup} {p : GroupPatch}
    (h : ∀ g ∈ t, g.id = p.id → g.sourceServiceId = none) :
    ∃ g2 ∈ upsertGroup t p, g2.id = p.id ∧ g2.sourceServiceId = p.sourceServiceId := by
  unfold upsertGroup
  split_ifs with hp
  · obtain ⟨g, hg, hid⟩ := List.any_eq_true.mp hp
    have hid2 : g.id = p.id := by simpa using hid
    refine ⟨applyPatch g p, List.mem_map.mpr ⟨g, hg, by simp [hid2]⟩, hid2, ?_⟩
    simp [applyPatch, h g hg hid2, Option.orElse]
  · exact ⟨⟨p.id, p.label, p.gtype, dedupIds p.addMembers, p.parentId, p.sourceServiceId⟩,
      List.mem_append.mpr (Or.inr (by simp)), rfl, rfl⟩

theorem upsert_src_none {t : List ParsedGroup} {p : GroupPatch}
    (ht : ∀ g ∈ t, g.sourceServiceId = none) (hp2 : p.sourceServiceId = none) :
    ∀ g ∈ upsertGroup t p, g.sourceServiceId = none := by
  intro g hg
  cases hsrc : g.sourceServiceId with
  | none => rfl
  | some v =>
    rcases upsert_src_origin hg hsrc with ⟨h0, hh0, hv⟩ | hv
    · rw [ht h0 hh0] at hv
      exact absurd hv (by simp)
    · rw [hp2] at hv
      exact absurd hv (by simp)

end AzViz

namespace AzViz

theorem filterMembers_ids (a b : List String) (t : List ParsedGroup) :
    (filterMembers a b t).map (fun g => g.id) = t.map (fun g => g.id) := by
  unfold filterMembers
  rw [List.map_map]
  apply List.map_congr_left
  intro g _
  rfl

theorem parse_some_iff {p : LoosePayload} {arch : ParsedArchitecture}
    (h : parseStructuredDiagram p = some arch) :
    ∃ svcs, p.services = some svcs ∧
      arch = normalize svcs (p.groups.getD []) (p.connections.getD []) := by
  unfold parseStructuredDiagram at h
  cases hio : p.isObject with
  | false => rw [hio] at h; simp at h
  | true =>
    rw [hio] at h
    simp only [Bool.not_true, Bool.false_eq_true, if_false] at h
    cases hs : p.services with
    | none => rw [hs] at h; simp at h
    | some svcs =>
      rw [hs] at h
      simp only [Option.some_inj] at h
      exact ⟨svcs, rfl, h.symm⟩

theorem normalize_services_ids (svcs : List RawService) (groups : List RawGroup)
    (conns : List Connection) :
    (normalize svcs groups conns).services.map (fun s => s.id) = svcIdsOf svcs groups := by
  simp [normalize, svcIdsOf, List.map_map]

theorem normalize_groups_ids (svcs : List RawService) (groups : List RawGroup)
    (conns : List Connection) :
    (normalize svcs groups conns).groups.map (fun g => g.id) = gIdsOf svcs groups := by
  simp only [normalize]
  rw [filterMembers_ids]
  rfl

end AzViz

/-- C5: in every ParsedArchitecture returned by `parseStructuredDiagram`, no
connection is a self-loop and both endpoints of every connection resolve to a
surviving service id or group id; every input connection failing either
condition is absent from the output, and the function is total so no error is
raised. -/
theorem c5_connections_filtered (p : AzViz.LoosePayload) (arch : AzViz.ParsedArchitecture)
    (h : AzViz.parseStructuredDiagram p = some arch) :
    (∀ c ∈ arch.connections,
      c.fromId ≠ c.toId ∧
      (c.fromId ∈ arch.services.map (fun s => s.id) ∨
        c.fromId ∈ arch.groups.map (fun g => g.id)) ∧
      (c.toId ∈ arch.services.map (fun s => s.id) ∨
        c.toId ∈ arch.groups.map (fun g => g.id))) ∧
    (∀ c ∈ p.connections.getD [],
      (c.fromId = c.toId ∨
        ¬(c.fromId ∈ arch.services.map (fun s => s.id) ∨
          c.fromId ∈ arch.groups.map (fun g => g.id)) ∨
        ¬(c.toId ∈ arch.services.map (fun s => s.id) ∨
          c.toId ∈ arch.groups.map (fun g => g.id))) →
      c ∉ arch.connections) := by
  obtain ⟨svcs, hs, rfl⟩ := AzViz.parse_some_iff h
  have hserv := AzViz.normalize_services_ids svcs (p.groups.getD [])
    (p.connections.getD [])
  have hgrp := AzViz.normalize_groups_ids svcs (p.groups.getD [])
    (p.connections.getD [])
  rw [hserv, hgrp]
  have hconn : (AzViz.normalize svcs (p.groups.getD []) (p.connections.getD [])).connections
      = (p.connections.getD []).filter
        (AzViz.connPred (AzViz.svcIdsOf svcs (p.groups.getD []))
          (AzViz.gIdsOf svcs (p.groups.getD []))) := rfl
  rw [hconn]
  constructor
  · intro c hc
    have hpred := (List.mem_filter.mp hc).2
    simp only [AzViz.connPred, Bool.and_eq_true, bne_iff_ne, Bool.or_eq_true,
      decide_eq_true_eq] at hpred
    exact ⟨hpred.1.1, hpred.1.2, hpred.2⟩
  · intro c hc hviol hmem
    have hpred := (List.mem_filter.mp hmem).2
    simp only [AzViz.connPred, Bool.and_eq_true, bne_iff_ne, Bool.or_eq_true,
      decide_eq_true_eq] at hpred
    rcases hviol with hv | hv | hv
    · exact hpred.1.1 hv
    · exact hv hpred.1.2
    · exact hv hpred.2

/-- Witness for C5 at the repository's dedup/self-loop test fixture. -/
theorem c5_witness :
    AzViz.parseStructuredDiagram
      ⟨true,
       some [⟨"vnet", "Virtual Networks", ["subs"]⟩, ⟨"vnet", "Virtual Networks", ["subnet"]⟩,
             ⟨"subnet", "Subnet", ["vnet"]⟩],
       some [⟨"subs", "Subscriptions", ["vnet", "vnet"], none, none, none⟩],
       some [⟨"vnet", "vnet", none⟩, ⟨"subnet", "vnet", some "contained in"⟩]⟩ =
      some (AzViz.normalize
        [⟨"vnet", "Virtual Networks", ["subs"]⟩, ⟨"vnet", "Virtual Networks", ["subnet"]⟩,
         ⟨"subnet", "Subnet", ["vnet"]⟩]
        [⟨"subs", "Subscriptions", ["vnet", "vnet"], none, none, none⟩]
        [⟨"vnet", "vnet", none⟩, ⟨"subnet", "vnet", some "contained in"⟩]) ∧
    ∀ c ∈ (AzViz.normalize
        [⟨"vnet", "Virtual Networks", ["subs"]⟩, ⟨"vnet", "Virtual Networks", ["subnet"]⟩,
         ⟨"subnet", "Subnet", ["vnet"]⟩]
        [⟨"subs", "Subscriptions", ["vnet", "vnet"], none, none, none⟩]
        [⟨"vnet", "vnet", none⟩, ⟨"subnet", "vnet", some "contained in"⟩]).connections,
      c.fromId ≠ c.toId :=
  ⟨rfl, fun c hc =>
    ((c5_connections_filtered
      ⟨true,
       some [⟨"vnet", "Virtual Networks", ["subs"]⟩, ⟨"vnet", "Virtual Networks", ["subnet"]⟩,
             ⟨"subnet", "Subnet", ["vnet"]⟩],
       some [⟨"subs", "Subscriptions", ["vnet", "vnet"], none, none, none⟩],
       some [⟨"vnet", "vnet", none⟩, ⟨"subnet", "vnet", some "contained in"⟩]⟩
      (AzViz.normalize
        [⟨"vnet", "Virtual Networks", ["subs"]⟩, ⟨"vnet", "Virtual Networks", ["subnet"]⟩,
         ⟨"subnet", "Subnet", ["vnet"]⟩]
        [⟨"subs", "Subscriptions", ["vnet", "vnet"], none, none, none⟩]
        [⟨"vnet", "vnet", none⟩, ⟨"subnet", "vnet", some "contained in"⟩])
      rfl).1 c hc).1⟩

namespace AzViz

theorem foldUpsert_ids_mem :
    ∀ (ps : List GroupPatch) (t : List ParsedGroup) (i : String),
      i ∈ (ps.foldl upsertGroup t).map (fun g => g.id) ↔
        i ∈ t.map (fun g => g.id) ∨ ∃ p ∈ ps, i = p.id := by
  intro ps
  induction ps with
  | nil => intro t i; simp
  | cons p ps2 ih =>
    intro t i
    simp only [List.foldl_cons]
    rw [ih (upsertGroup t p) i, upsert_ids_mem]
    simp only [List.mem_cons]
    constructor
    · rintro ((h | h) | ⟨q, hq, rfl⟩)
      · exact Or.inl h
      · exact Or.inr ⟨p, Or.inl rfl, h⟩
      · exact Or.inr ⟨q, Or.inr hq, rfl⟩
    · rintro (h | ⟨q, hq | hq, rfl⟩)
      · exact Or.inl (Or.inl h)
      · subst hq; exact Or.inl (Or.inr rfl)
      · exact Or.inr ⟨q, hq, rfl⟩

theorem foldUpsert_nodup_ids :
    ∀ (ps : List GroupPatch) (t : List ParsedGroup),
      (t.map (fun g => g.id)).Nodup → ((ps.foldl upsertGroup t).map (fun g => g.id)).Nodup := by
  intro ps
  induction ps with
  | nil => intro t h; exact h
  | cons p ps2 ih => intro t h; exact ih (upsertGroup t p) (upsert_nodup_ids h)

theorem foldUpsert_members_origin :
    ∀ (ps : List GroupPatch) (t : List ParsedGroup) (g : ParsedGroup),
      g ∈ ps.foldl upsertGroup t → ∀ m ∈ g.members,
        (∃ h ∈ t, h.id = g.id ∧ m ∈ h.members) ∨
          ∃ p ∈ ps, p.id = g.id ∧ m ∈ p.addMembers := by
  intro ps
  induction ps with
  | nil => intro t g hg m hm; exact Or.inl ⟨g, hg, rfl, hm⟩
  | cons p ps2 ih =>
    intro t g hg m hm
    rcases ih (upsertGroup t p) g hg m hm with ⟨h0, hh0, hid0, hmem⟩ | ⟨q, hq, hidq, hmem⟩
    · rcases upsert_members_origin hh0 hmem with ⟨h1, hh1, hid1, hm1⟩ | ⟨hidp, hm1⟩
      · exact Or.inl ⟨h1, hh1, hid1.trans hid0, hm1⟩
      · exact Or.inr ⟨p, by simp, hidp.trans hid0, hm1⟩
    · exact Or.inr ⟨q, by simp [hq], hidq, hmem⟩

theorem foldUpsert_parent_origin :
    ∀ (ps : List GroupPatch) (t : List ParsedGroup) (g : ParsedGroup),
      g ∈ ps.foldl upsertGroup t → ∀ x, g.parentId = some x →
        (∃ h ∈ t, h.parentId = some x) ∨ ∃ p ∈ ps, p.parentId = some x := by
  intro ps
  induction ps with
  | nil => intro t g hg x hx; exact Or.inl ⟨g, hg, hx⟩
  | cons p ps2 ih =>
    intro t g hg x hx
    rcases ih (upsertGroup t p) g hg x hx with ⟨h0, hh0, hp0⟩ | ⟨q, hq, hp0⟩
    · rcases upsert_parent_origin hh0 hp0 with ⟨h1, hh1, hp1⟩ | hp1
      · exact Or.inl ⟨h1, hh1, hp1⟩
      · exact Or.inr ⟨p, by simp, hp1⟩
    · exact Or.inr ⟨q, by simp [hq], hp0⟩

theorem foldUpsert_members_nodup :
    ∀ (ps : List GroupPatch) (t : List ParsedGroup),
      (∀ g ∈ t, g.members.Nodup) → ∀ g ∈ ps.foldl upsertGroup t, g.members.Nodup := by
  intro ps
  induction ps with
  | nil => intro t h; exact h
  | cons p ps2 ih => intro t h; exact ih (upsertGroup t p) (upsert_members_nodup h)

theorem foldUpsert_mono :
    ∀ (ps : List GroupPatch) (t : List ParsedGroup) (g : ParsedGroup), g ∈ t →
      ∃ g2 ∈ ps.foldl upsertGroup t, g2.id = g.id ∧ (∀ m ∈ g.members, m ∈ g2.members) ∧
        (∀ v, g.sourceServiceId = some v → g2.sourceServiceId = some v) := by
  intro ps
  induction ps with
  | nil => intro t g hg; exact ⟨g, hg, rfl, fun m hm => hm, fun v hv => hv⟩
  | cons p ps2 ih =>
    intro t g hg
    obtain ⟨g1, hg1, hid1, hm1, hs1⟩ := upsert_mono (p := p) hg
    obtain ⟨g2, hg2, hid2, hm2, hs2⟩ := ih (upsertGroup t p) g1 hg1
    exact ⟨g2, hg2, hid2.trans hid1, fun m hm => hm2 m (hm1 m hm),
      fun v hv => hs2 v (hs1 v hv)⟩

theorem foldUpsert_patch_present :
    ∀ (ps : List GroupPatch) (t : List ParsedGroup) (p : GroupPatch), p ∈ ps →
      ∃ g2 ∈ ps.foldl upsertGroup t, g2.id = p.id ∧ ∀ m ∈ p.addMembers, m ∈ g2.members := by
  intro ps
  induction ps with
  | nil => intro t p hp; simp at hp
  | cons q ps2 ih =>
    intro t p hp
    rcases List.mem_cons.mp hp with rfl | hp2
    · obtain ⟨g1, hg1, hid1, hm1⟩ := upsert_patch_present t p
      obtain ⟨g2, hg2, hid2, hm2, -⟩ := foldUpsert_mono ps2 (upsertGroup t p) g1 hg1
      exact ⟨g2, hg2, hid2.trans hid1, fun m hm => hm2 m (hm1 m hm)⟩
    · exact ih (upsertGroup t q) p hp2

theorem upsert_src_none_for_id {t : List ParsedGroup} {q : GroupPatch} {i : String}
    (h : ∀ g ∈ t, g.id = i → g.sourceServiceId = none)
    (hq : q.id ≠ i ∨ q.sourceServiceId = none) :
    ∀ g ∈ upsertGroup t q, g.id = i → g.sourceServiceId = none := by
  intro g hg hi
  unfold upsertGroup at hg
  split_ifs at hg with hp
  · obtain ⟨h0, hh0, rfl⟩ := List.mem_map.mp hg
    by_cases hid : h0.id = q.id
    · simp only [hid, beq_self_eq_true, if_true] at hi ⊢
      rw [applyPatch_id] at hi
      rcases hq with hq | hq
      · exact absurd (hid.symm.trans hi) hq
      · simp [applyPatch, h h0 hh0 hi, hq, Option.orElse]
    · simp only [beq_iff_eq, if_neg hid] at hi ⊢
      exact h h0 hh0 hi
  · rcases List.mem_append.mp hg with hh | hh
    · exact h g hh hi
    · simp only [List.mem_singleton] at hh
      subst hh
      rcases hq with hq | hq
      · exact absurd hi hq
      · exact hq

theorem foldUpsert_src_none_for_id :
    ∀ (ps : List GroupPatch) (t : List ParsedGroup) (i : String),
      (∀ g ∈ t, g.id = i → g.sourceServiceId = none) →
      (∀ p ∈ ps, p.id ≠ i ∨ p.sourceServiceId = none) →
      ∀ g ∈ ps.foldl upsertGroup t, g.id = i → g.sourceServiceId = none := by
  intro ps
  induction ps with
  | nil => intro t i h _; exact h
  | cons q ps2 ih =>
    intro t i h hps
    exact ih (upsertGroup t q) i
      (upsert_src_none_for_id h (hps q (by simp)))
      (fun p hp => hps p (by simp [hp]))

theorem foldUpsert_src_none :
    ∀ (ps : List GroupPatch) (t : List ParsedGroup),
      (∀ g ∈ t, g.sourceServiceId = none) → (∀ p ∈ ps, p.sourceServiceId = none) →
      ∀ g ∈ ps.foldl upsertGroup t, g.sourceServiceId = none := by
  intro ps
  induction ps with
  | nil => intro t h _; exact h
  | cons q ps2 ih =>
    intro t h hps
    exact ih (upsertGroup t q)
      (upsert_src_none h (hps q (by simp)))
      (fun p hp => hps p (by simp [hp]))

theorem foldUpsert_src_set :
    ∀ (ps1 : List GroupPatch) (pp : GroupPatch) (ps2 : List GroupPatch)
      (t : List ParsedGroup) (v : String),
      (∀ g ∈ t, g.id = pp.id → g.sourceServiceId = none) →
      (∀ p ∈ ps1, p.id ≠ pp.id ∨ p.sourceServiceId = none) →
      pp.sourceServiceId = some v →
      ∃ g2 ∈ (ps1 ++ pp :: ps2).foldl upsertGroup t, g2.id = pp.id ∧
        g2.sourceServiceId = some v := by
  intro ps1
  induction ps1 with
  | nil =>
    intro pp ps2 t v ht _ hv
    simp only [List.nil_append, List.foldl_cons]
    obtain ⟨g1, hg1, hid1, hsrc1⟩ := upsert_src_set ht
    obtain ⟨g2, hg2, hid2, -, hmono⟩ := foldUpsert_mono ps2 (upsertGroup t pp) g1 hg1
    exact ⟨g2, hg2, hid2.trans hid1, hmono v (by rw [hsrc1, hv])⟩
  | cons q qs ih =>
    intro pp ps2 t v ht hq hv
    simp only [List.cons_append, List.foldl_cons]
    exact ih pp ps2 (upsertGroup t q) v
      (upsert_src_none_for_id ht (hq q (by simp)))
      (fun p hp => hq p (by simp [hp])) hv

end AzViz

namespace AzViz

theorem mem_filterMembers {a b : List String} {t : List ParsedGroup} {g : ParsedGroup}
    (hg : g ∈ filterMembers a b t) :
    ∃ g0 ∈ t, g.id = g0.id ∧ g.sourceServiceId = g0.sourceServiceId ∧
      g.parentId = g0.parentId ∧ ∀ m ∈ g.members, m ∈ g0.members := by
  unfold filterMembers at hg
  obtain ⟨g0, hg0, rfl⟩ := List.mem_map.mp hg
  exact ⟨g0, hg0, rfl, rfl, rfl, fun m hm => (List.mem_filter.mp hm).1⟩

theorem tableOf_nodup_ids (svcs : List RawService) (G : List RawGroup) :
    ((tableOf svcs G).map (fun g => g.id)).Nodup :=
  foldUpsert_nodup_ids _ [] (by simp)

theorem tableOf_promoted_src (svcs : List RawService) (G : List RawGroup)
    (hsrcnone : ∀ g ∈ G, g.sourceServiceId = none)
    (s : RawService) (hsP : s ∈ promotedOf svcs G) :
    ∃ g2 ∈ tableOf svcs G, g2.id = s.id ∧ g2.sourceServiceId = some s.id := by
  obtain ⟨P1, P2, hsplit⟩ := List.append_of_mem hsP
  have hPn : ((promotedOf svcs G).map (fun t => t.id)).Nodup :=
    (dedupServices_nodup_ids svcs).sublist ((List.filter_sublist _).map _)
  have hP1 : ∀ q ∈ P1, q.id ≠ s.id := by
    intro q hq heq
    rw [hsplit, List.map_append, List.nodup_append] at hPn
    exact hPn.2.2 (List.mem_map_of_mem _ hq) (by simp [heq])
  unfold tableOf buildGroups
  rw [hsplit, List.map_append, List.map_cons]
  have hassoc :
      G.map explicitPatch ++ membershipPatches (dedupServices svcs) ++
        (P1.map promotedPatch ++ promotedPatch s :: P2.map promotedPatch) =
      (G.map explicitPatch ++ membershipPatches (dedupServices svcs) ++
        P1.map promotedPatch) ++ promotedPatch s :: P2.map promotedPatch := by
    simp [List.append_assoc]
  rw [hassoc]
  apply foldUpsert_src_set _ _ _ _ s.id (by simp) ?_ rfl
  intro q hq
  rcases List.mem_append.mp hq with hq1 | hq2
  · rcases List.mem_append.mp hq1 with hqe | hqm
    · obtain ⟨g0, hg0, rfl⟩ := List.mem_map.mp hqe
      exact Or.inr (by simp [explicitPatch, hsrcnone g0 hg0])
    · obtain ⟨s0, hs0, hq0⟩ := List.mem_flatMap.mp hqm
      obtain ⟨gid, hgid, rfl⟩ := List.mem_map.mp hq0
      exact Or.inr rfl
  · obtain ⟨q0, hq0, rfl⟩ := List.mem_map.mp hq2
    exact Or.inl (hP1 q0 hq0)

end AzViz

/-- C3: for every structured payload containing a service whose id is also
declared as another entity's parentId, or referenced as a group member while
carrying known-container naming, `parseStructuredDiagram` represents that id
exactly once, as a ParsedGroup carrying the former service identity in
`sourceServiceId`, and the id does not appear in the output services list. -/
theorem c3_container_promotion (p : AzViz.LoosePayload) (arch : AzViz.ParsedArchitecture)
    (svcs : List AzViz.RawService)
    (h : AzViz.parseStructuredDiagram p = some arch)
    (hsv : p.services = some svcs)
    (hnodup : (svcs.map (fun t => t.id)).Nodup)
    (hsrcnone : ∀ g ∈ p.groups.getD [], g.sourceServiceId = none)
    (s : AzViz.RawService) (hs : s ∈ svcs)
    (htrig : AzViz.listedAsParent (p.groups.getD []) s.id = true ∨
      ((p.groups.getD []).any (fun g => decide (s.id ∈ g.members)) = true ∧
        AzViz.isContainerTitle s.title = true)) :
    s.id ∉ arch.services.map (fun m => m.id) ∧
    (arch.groups.filter (fun g => g.id == s.id)).length = 1 ∧
    ∀ g ∈ arch.groups, g.id = s.id → g.sourceServiceId = some s.id := by
  obtain ⟨svcs0, hsv0, harch⟩ := AzViz.parse_some_iff h
  rw [hsv] at hsv0
  injection hsv0 with hsvcs
  subst hsvcs
  subst harch
  have hD : AzViz.dedupServices svcs = svcs := AzViz.dedupServices_eq_self hnodup
  have hpc : AzViz.promoteCond svcs (p.groups.getD []) s = true := by
    unfold AzViz.promoteCond
    rw [Bool.and_eq_true, Bool.or_eq_true, Bool.or_eq_true]
    rcases htrig with hpar | ⟨hmem, hcont⟩
    · constructor
      · left
        unfold AzViz.usedAsGroup
        rw [Bool.or_eq_true]
        right
        unfold AzViz.listedAsParent at hpar
        exact hpar
      · left
        exact hpar
    · constructor
      · right
        unfold AzViz.referencedAsMember
        rw [Bool.or_eq_true]
        right
        exact hmem
      · right
        exact hcont
  have hpcD : AzViz.promoteCond (AzViz.dedupServices svcs) (p.groups.getD []) s = true := by
    rw [hD]
    exact hpc
  have hsP : s ∈ AzViz.promotedOf svcs (p.groups.getD []) := by
    unfold AzViz.promotedOf
    rw [hD]
    exact List.mem_filter.mpr ⟨hs, hpc⟩
  have hnotin : s.id ∉ AzViz.svcIdsOf svcs (p.groups.getD []) := by
    intro hmem
    obtain ⟨t, ht, hid⟩ := List.mem_map.mp hmem
    unfold AzViz.survivingOf at ht
    rw [hD] at ht
    obtain ⟨htmem, htcond⟩ := List.mem_filter.mp ht
    have hts : t = s := List.inj_on_of_nodup_map hnodup htmem hs hid
    rw [hts] at htcond
    simp [hpc] at htcond
  obtain ⟨g2, hg2mem, hg2id, hg2src⟩ :=
    AzViz.tableOf_promoted_src svcs (p.groups.getD []) hsrcnone s hsP
  have hgroups :
      (AzViz.normalize svcs (p.groups.getD []) (p.connections.getD [])).groups =
        AzViz.filterMembers (AzViz.svcIdsOf svcs (p.groups.getD []))
          (AzViz.gIdsOf svcs (p.groups.getD []))
          (AzViz.tableOf svcs (p.groups.getD [])) := rfl
  have hids :
      ((AzViz.normalize svcs (p.groups.getD []) (p.connections.getD [])).groups.map
        (fun g => g.id)).Nodup := by
    rw [AzViz.normalize_groups_ids]
    exact AzViz.tableOf_nodup_ids svcs (p.groups.getD [])
  refine ⟨?_, ?_, ?_⟩
  · rw [AzViz.normalize_services_ids]
    exact hnotin
  · have hmemid : s.id ∈
        (AzViz.normalize svcs (p.groups.getD []) (p.connections.getD [])).groups.map
          (fun g => g.id) := by
      rw [AzViz.normalize_groups_ids]
      exact List.mem_map.mpr ⟨g2, hg2mem, hg2id⟩
    obtain ⟨g0, hg0mem, hg0id⟩ := List.mem_map.mp hmemid
    have hone : (List.filter (fun g => g.id == g0.id)
        (AzViz.normalize svcs (p.groups.getD []) (p.connections.getD [])).groups).length = 1 :=
      AzViz.filter_length_one_of_nodup_map (fun g : AzViz.ParsedGroup => g.id)
        (AzViz.normalize svcs (p.groups.getD []) (p.connections.getD [])).groups g0 hids hg0mem
    rw [hg0id] at hone
    exact hone
  · intro g hgmem hgid
    rw [hgroups] at hgmem
    obtain ⟨g0, hg0, hid0, hsrc0, -, -⟩ := AzViz.mem_filterMembers hgmem
    have hg0g2 : g0 = g2 :=
      List.inj_on_of_nodup_map (AzViz.tableOf_nodup_ids svcs (p.groups.getD []))
        hg0 hg2mem (by rw [← hid0, hgid, hg2id])
    rw [hsrc0, hg0g2, hg2src]

/-- Witness for C3 at a concrete payload where a service is declared as a
group's parentId. -/
theorem c3_witness :
    "x" ∉ (AzViz.normalize [⟨"x", "Anything", []⟩]
        [⟨"rg", "RG", [], some "x", none, none⟩] []).services.map (fun m => m.id) ∧
    ((AzViz.normalize [⟨"x", "Anything", []⟩]
        [⟨"rg", "RG", [], some "x", none, none⟩] []).groups.filter
      (fun g => g.id == "x")).length = 1 ∧
    ∀ g ∈ (AzViz.normalize [⟨"x", "Anything", []⟩]
        [⟨"rg", "RG", [], some "x", none, none⟩] []).groups,
      g.id = "x" → g.sourceServiceId = some "x" :=
  c3_container_promotion
    ⟨true, some [⟨"x", "Anything", []⟩], some [⟨"rg", "RG", [], some "x", none, none⟩],
      some []⟩
    (AzViz.normalize [⟨"x", "Anything", []⟩] [⟨"rg", "RG", [], some "x", none, none⟩] [])
    [⟨"x", "Anything", []⟩] rfl rfl (by decide) (by decide)
    ⟨"x", "Anything", []⟩ (by decide) (Or.inl (by decide))

namespace AzViz

theorem filter_length_le_one_of_nodup_map {α β : Type} [BEq β] [LawfulBEq β]
    (f : α → β) (l : List α) (c : β) (hn : (l.map f).Nodup) :
    (l.filter (fun x => f x == c)).length ≤ 1 := by
  induction l with
  | nil => simp
  | cons b l2 ih =>
    simp only [List.map_cons, List.nodup_cons] at hn
    by_cases hb : f b = c
    · have hrest : l2.filter (fun x => f x == c) = [] := by
        rw [List.filter_eq_nil]
        intro x hx
        simp only [beq_iff_eq]
        intro hfx
        exact hn.1 (by rw [hb, ← hfx]; exact List.mem_map_of_mem f hx)
      simp [List.filter_cons, hb, hrest]
    · simp only [List.filter_cons, beq_iff_eq, hb, if_false]
      exact ih hn.2

theorem foldl_addService_cons_fresh :
    ∀ (l acc : List RawService) (x : RawService), (∀ t ∈ l, t.id ≠ x.id) →
      l.foldl addService (x :: acc) = x :: l.foldl addService acc := by
  intro l
  induction l with
  | nil => intro acc x _; rfl
  | cons t l2 ih =>
    intro acc x h
    have htx : (t.id == x.id) = false := by
      simp only [beq_eq_false_iff_ne, ne_eq]
      exact h t (by simp)
    simp only [List.foldl_cons]
    have hany : (x :: acc).any (fun u => u.id == t.id) = acc.any (fun u => u.id == t.id) := by
      simp only [List.any_cons]
      have : (x.id == t.id) = false := by
        simp only [beq_eq_false_iff_ne, ne_eq]
        exact fun he => h t (by simp) he.symm
      rw [this]
      simp
    have hstep : addService (x :: acc) t = x :: addService acc t := by
      unfold addService
      rw [hany]
      by_cases hacc : acc.any (fun u => u.id == t.id) = true
      · rw [if_pos hacc, if_pos hacc]
        simp only [List.map_cons]
        rw [show (if x.id == t.id then
            { x with groupIds := mergeIds x.groupIds t.groupIds } else x) = x from by
          rw [if_neg]
          simp only [beq_iff_eq]
          exact fun he => h t (by simp) he.symm]
      · rw [if_neg hacc, if_neg hacc]
        simp
    rw [hstep]
    exact ih (addService acc t) x (fun u hu => h u (by simp [hu]))

theorem dedupServices_two (s1 s2 : RawService) (rest : List RawService)
    (hid : s2.id = s1.id) (hrest : ∀ t ∈ rest, t.id ≠ s1.id) :
    dedupServices (s1 :: s2 :: rest) =
      { s1 with groupIds := mergeIds s1.groupIds s2.groupIds } :: dedupServices rest := by
  unfold dedupServices
  simp only [List.foldl_cons]
  have h1 : addService [] s1 = [s1] := by
    unfold addService
    simp
  rw [h1]
  have h2 : addService [s1] s2 =
      [{ s1 with groupIds := mergeIds s1.groupIds s2.groupIds }] := by
    unfold addService
    rw [if_pos (by simp [hid])]
    simp only [List.map_cons, List.map_nil]
    rw [if_pos (by simp [hid])]
  rw [h2]
  exact foldl_addService_cons_fresh rest [] _ (fun t ht => hrest t ht)

theorem foldl_addService_ids_sub :
    ∀ (l acc : List RawService) (i : String),
      i ∈ (l.foldl addService acc).map (fun t => t.id) →
      i ∈ acc.map (fun t => t.id) ∨ i ∈ l.map (fun t => t.id) := by
  intro l
  induction l with
  | nil => intro acc i h; exact Or.inl h
  | cons t l2 ih =>
    intro acc i h
    simp only [List.foldl_cons] at h
    rcases ih (addService acc t) i h with h2 | h2
    · unfold addService at h2
      split_ifs at h2 with hp
      · rw [addService_map_id_of_present] at h2
        exact Or.inl h2
      · simp only [List.map_append, List.map_cons, List.map_nil, List.mem_append,
          List.mem_cons, List.not_mem_nil, or_false] at h2
        rcases h2 with h2 | h2
        · exact Or.inl h2
        · exact Or.inr (by simp [h2])
    · exact Or.inr (by simp [h2])

end AzViz

/-- C4: for every structured payload whose services list contains two entries
with the same id but different groupIds (and no explicit group independently
lists that id among its members), `parseStructuredDiagram` returns at most
one service with that id, carrying the first occurrence's scalar fields, and
the groups containing that id as a member are exactly the union of both
occurrences' groupIds. -/
theorem c4_service_dedup (p : AzViz.LoosePayload) (arch : AzViz.ParsedArchitecture)
    (s1 s2 : AzViz.RawService) (rest : List AzViz.RawService)
    (h : AzViz.parseStructuredDiagram p = some arch)
    (hsv : p.services = some (s1 :: s2 :: rest))
    (hid : s2.id = s1.id)
    (hrest : ∀ t ∈ rest, t.id ≠ s1.id)
    (hgm : ∀ g ∈ p.groups.getD [], s1.id ∉ g.members) :
    (arch.services.filter (fun v => v.id == s1.id)).length ≤ 1 ∧
    (∀ v ∈ arch.services, v.id = s1.id → v.title = s1.title) ∧
    (∀ gid : String, (∃ g ∈ arch.groups, g.id = gid ∧ s1.id ∈ g.members) ↔
      gid ∈ s1.groupIds ++ s2.groupIds) := by
  obtain ⟨svcs0, hsv0, harch⟩ := AzViz.parse_some_iff h
  rw [hsv] at hsv0
  injection hsv0 with hsvcs
  subst harch
  subst hsvcs
  have hD : AzViz.dedupServices (s1 :: s2 :: rest) =
      { s1 with groupIds := AzViz.mergeIds s1.groupIds s2.groupIds } ::
        AzViz.dedupServices rest :=
    AzViz.dedupServices_two s1 s2 rest hid hrest
  have hDrest : ∀ t ∈ AzViz.dedupServices rest, t.id ≠ s1.id := by
    intro t ht heq
    have hin : t.id ∈ (AzViz.dedupServices rest).map (fun u => u.id) :=
      List.mem_map_of_mem _ ht
    rcases AzViz.foldl_addService_ids_sub rest [] t.id hin with h2 | h2
    · simp at h2
    · obtain ⟨u, hu, hu2⟩ := List.mem_map.mp h2
      exact hrest u hu (hu2.trans heq)
  have hmD : ({ s1 with groupIds := AzViz.mergeIds s1.groupIds s2.groupIds }
      : AzViz.RawService) ∈ AzViz.dedupServices (s1 :: s2 :: rest) := by
    rw [hD]
    simp
  have hgroups :
      (AzViz.normalize (s1 :: s2 :: rest) (p.groups.getD [])
        (p.connections.getD [])).groups =
        AzViz.filterMembers (AzViz.svcIdsOf (s1 :: s2 :: rest) (p.groups.getD []))
          (AzViz.gIdsOf (s1 :: s2 :: rest) (p.groups.getD []))
          (AzViz.tableOf (s1 :: s2 :: rest) (p.groups.getD [])) := rfl
  refine ⟨?_, ?_, ?_⟩
  · have hnodup : ((AzViz.normalize (s1 :: s2 :: rest) (p.groups.getD [])
        (p.connections.getD [])).services.map (fun v => v.id)).Nodup := by
      rw [AzViz.normalize_services_ids]
      exact (AzViz.dedupServices_nodup_ids (s1 :: s2 :: rest)).sublist
        ((List.filter_sublist _).map _)
    exact AzViz.filter_length_le_one_of_nodup_map (fun v : AzViz.ModelService => v.id)
      _ s1.id hnodup
  · intro v hv hvid
    obtain ⟨t, ht, rfl⟩ := List.mem_map.mp hv
    obtain ⟨htD, -⟩ := List.mem_filter.mp ht
    rw [hD] at htD
    rcases List.mem_cons.mp htD with rfl | htD2
    · rfl
    · exact absurd hvid (hDrest t htD2)
  · intro gid
    constructor
    · rintro ⟨g, hgmem, hgid, hs1mem⟩
      rw [hgroups] at hgmem
      obtain ⟨g0, hg0, hid0, -, -, hsub⟩ := AzViz.mem_filterMembers hgmem
      have hs1g0 : s1.id ∈ g0.members := hsub _ hs1mem
      rcases AzViz.foldUpsert_members_origin _ [] g0 hg0 _ hs1g0 with
        ⟨h0, hh0, -⟩ | ⟨q, hq, hqid, hqmem⟩
      · simp at hh0
      · rcases List.mem_append.mp hq with hq1 | hq2
        · rcases List.mem_append.mp hq1 with hqe | hqm
          · obtain ⟨ge, hge, rfl⟩ := List.mem_map.mp hqe
            exact absurd hqmem (hgm ge hge)
          · obtain ⟨d, hd, hq0⟩ := List.mem_flatMap.mp hqm
            obtain ⟨gid2, hgid2, rfl⟩ := List.mem_map.mp hq0
            simp only [List.mem_singleton] at hqmem
            have hdm : d = { s1 with groupIds := AzViz.mergeIds s1.groupIds s2.groupIds } := by
              rw [hD] at hd
              rcases List.mem_cons.mp hd with rfl | hd2
              · rfl
              · exact absurd hqmem.symm (hDrest d hd2)
            rw [hdm] at hgid2
            have h5 : gid2 = g0.id := hqid
            have h6 : gid2 = gid := by
              rw [← hgid, hid0]
              exact h5
            rw [← h6]
            rw [List.mem_append]
            exact (AzViz.mem_mergeIds s2.groupIds s1.groupIds).mp hgid2
        · obtain ⟨q0, hq0, rfl⟩ := List.mem_map.mp hq2
          simp [AzViz.promotedPatch] at hqmem
    · intro hgid
      have hgidm : gid ∈ AzViz.mergeIds s1.groupIds s2.groupIds :=
        (AzViz.mem_mergeIds s2.groupIds s1.groupIds).mpr (List.mem_append.mp hgid)
      have hqm : (⟨gid,
          AzViz.serviceLabelFor (AzViz.dedupServices (s1 :: s2 :: rest)) gid,
          AzViz.titleToGroupType
            (AzViz.serviceLabelFor (AzViz.dedupServices (s1 :: s2 :: rest)) gid),
          [({ s1 with groupIds := AzViz.mergeIds s1.groupIds s2.groupIds }
            : AzViz.RawService).id], none, none⟩ : AzViz.GroupPatch) ∈
          AzViz.membershipPatches (AzViz.dedupServices (s1 :: s2 :: rest)) := by
        unfold AzViz.membershipPatches
        refine List.mem_flatMap.mpr ⟨_, hmD, ?_⟩
        exact List.mem_map.mpr ⟨gid, hgidm, rfl⟩
      have hq_t0 : (⟨gid,
          AzViz.serviceLabelFor (AzViz.dedupServices (s1 :: s2 :: rest)) gid,
          AzViz.titleToGroupType
            (AzViz.serviceLabelFor (AzViz.dedupServices (s1 :: s2 :: rest)) gid),
          [({ s1 with groupIds := AzViz.mergeIds s1.groupIds s2.groupIds }
            : AzViz.RawService).id], none, none⟩ : AzViz.GroupPatch) ∈
          ((p.groups.getD []).map AzViz.explicitPatch ++
            AzViz.membershipPatches (AzViz.dedupServices (s1 :: s2 :: rest)) ++
            (AzViz.promotedOf (s1 :: s2 :: rest) (p.groups.getD [])).map
              AzViz.promotedPatch) :=
        List.mem_append.mpr (Or.inl (List.mem_append.mpr (Or.inr hqm)))
      obtain ⟨g2, hg2, hg2id, hg2mem⟩ :=
        AzViz.foldUpsert_patch_present _ [] _ hq_t0
      have hs1g2 : s1.id ∈ g2.members := hg2mem _ (by simp)
      have hpred : (decide (s1.id ∈ AzViz.svcIdsOf (s1 :: s2 :: rest) (p.groups.getD [])) ||
          decide (s1.id ∈ AzViz.gIdsOf (s1 :: s2 :: rest) (p.groups.getD []))) = true := by
        by_cases hpc : AzViz.promoteCond (AzViz.dedupServices (s1 :: s2 :: rest))
            (p.groups.getD [])
            { s1 with groupIds := AzViz.mergeIds s1.groupIds s2.groupIds } = true
        · have hP : ({ s1 with groupIds := AzViz.mergeIds s1.groupIds s2.groupIds }
              : AzViz.RawService) ∈
              AzViz.promotedOf (s1 :: s2 :: rest) (p.groups.getD []) :=
            List.mem_filter.mpr ⟨hmD, hpc⟩
          have hpp : AzViz.promotedPatch
              { s1 with groupIds := AzViz.mergeIds s1.groupIds s2.groupIds } ∈
              ((p.groups.getD []).map AzViz.explicitPatch ++
                AzViz.membershipPatches (AzViz.dedupServices (s1 :: s2 :: rest)) ++
                (AzViz.promotedOf (s1 :: s2 :: rest) (p.groups.getD [])).map
                  AzViz.promotedPatch) :=
            List.mem_append.mpr (Or.inr (List.mem_map_of_mem _ hP))
          obtain ⟨g3, hg3, hg3id, -⟩ := AzViz.foldUpsert_patch_present _ [] _ hpp
          have : s1.id ∈ AzViz.gIdsOf (s1 :: s2 :: rest) (p.groups.getD []) :=
            List.mem_map.mpr ⟨g3, hg3, hg3id⟩
          simp [this]
        · have hS : ({ s1 with groupIds := AzViz.mergeIds s1.groupIds s2.groupIds }
              : AzViz.RawService) ∈
              AzViz.survivingOf (s1 :: s2 :: rest) (p.groups.getD []) :=
            List.mem_filter.mpr ⟨hmD, by simp [hpc]⟩
          have : s1.id ∈ AzViz.svcIdsOf (s1 :: s2 :: rest) (p.groups.getD []) :=
            List.mem_map.mpr ⟨_, hS, rfl⟩
          simp [this]
      refine ⟨{ g2 with members := g2.members.filter (fun m =>
        decide (m ∈ AzViz.svcIdsOf (s1 :: s2 :: rest) (p.groups.getD [])) ||
        decide (m ∈ AzViz.gIdsOf (s1 :: s2 :: rest) (p.groups.getD []))) }, ?_, hg2id, ?_⟩
      · rw [hgroups]
        exact List.mem_map_of_mem _ hg2
      · rw [List.mem_filter]
        exact ⟨hs1g2, hpred⟩

/-- Witness for C4 at a concrete payload with one service declared twice
under different groupIds. -/
theorem c4_witness :
    ((AzViz.normalize [⟨"a", "Service A", ["g1"]⟩, ⟨"a", "Service A", ["g2"]⟩] []
        []).services.filter (fun v => v.id == "a")).length ≤ 1 ∧
    (∀ v ∈ (AzViz.normalize [⟨"a", "Service A", ["g1"]⟩, ⟨"a", "Service A", ["g2"]⟩] []
        []).services, v.id = "a" → v.title = "Service A") ∧
    (∀ gid : String,
      (∃ g ∈ (AzViz.normalize [⟨"a", "Service A", ["g1"]⟩, ⟨"a", "Service A", ["g2"]⟩] []
        []).groups, g.id = gid ∧ "a" ∈ g.members) ↔ gid ∈ ["g1"] ++ ["g2"]) :=
  c4_service_dedup
    ⟨true, some [⟨"a", "Service A", ["g1"]⟩, ⟨"a", "Service A", ["g2"]⟩], some [], some []⟩
    (AzViz.normalize [⟨"a", "Service A", ["g1"]⟩, ⟨"a", "Service A", ["g2"]⟩] [] [])
    ⟨"a", "Service A", ["g1"]⟩ ⟨"a", "Service A", ["g2"]⟩ []
    rfl rfl rfl (by simp) (by simp)

namespace AzViz

theorem tableOf_parent_origin (svcs : List RawService) (G : List RawGroup)
    {g : ParsedGroup} (hg : g ∈ tableOf svcs G) {x : String}
    (hx : g.parentId = some x) : ∃ ge ∈ G, ge.parentId = some x := by
  rcases foldUpsert_parent_origin _ [] g hg x hx with ⟨h0, hh0, -⟩ | ⟨q, hq, hqp⟩
  · simp at hh0
  · rcases List.mem_append.mp hq with hq1 | hq2
    · rcases List.mem_append.mp hq1 with hqe | hqm
      · obtain ⟨ge, hge, rfl⟩ := List.mem_map.mp hqe
        exact ⟨ge, hge, hqp⟩
      · obtain ⟨d, hd, hq0⟩ := List.mem_flatMap.mp hqm
        obtain ⟨gid, hgid, rfl⟩ := List.mem_map.mp hq0
        simp at hqp
    · obtain ⟨q0, hq0, rfl⟩ := List.mem_map.mp hq2
      simp [promotedPatch] at hqp

theorem tableOf_ids_origin (svcs : List RawService) (G : List RawGroup) {i : String}
    (hi : i ∈ (tableOf svcs G).map (fun g => g.id)) :
    (∃ ge ∈ G, ge.id = i) ∨ (∃ d ∈ dedupServices svcs, i ∈ d.groupIds) ∨
      ∃ q ∈ promotedOf svcs G, q.id = i := by
  rcases (foldUpsert_ids_mem _ [] i).mp hi with h | ⟨q, hq, rfl⟩
  · simp at h
  · rcases List.mem_append.mp hq with hq1 | hq2
    · rcases List.mem_append.mp hq1 with hqe | hqm
      · obtain ⟨ge, hge, rfl⟩ := List.mem_map.mp hqe
        exact Or.inl ⟨ge, hge, rfl⟩
      · obtain ⟨d, hd, hq0⟩ := List.mem_flatMap.mp hqm
        obtain ⟨gid, hgid, rfl⟩ := List.mem_map.mp hq0
        exact Or.inr (Or.inl ⟨d, hd, hgid⟩)
    · obtain ⟨q0, hq0, rfl⟩ := List.mem_map.mp hq2
      exact Or.inr (Or.inr ⟨q0, hq0, rfl⟩)

theorem tableOf_members_origin (svcs : List RawService) (G : List RawGroup)
    {g : ParsedGroup} (hg : g ∈ tableOf svcs G) {m : String} (hm : m ∈ g.members) :
    (∃ ge ∈ G, m ∈ ge.members) ∨
      ∃ d ∈ dedupServices svcs, m = d.id ∧ d.groupIds ≠ [] := by
  rcases foldUpsert_members_origin _ [] g hg m hm with ⟨h0, hh0, -⟩ | ⟨q, hq, -, hqmem⟩
  · simp at hh0
  · rcases List.mem_append.mp hq with hq1 | hq2
    · rcases List.mem_append.mp hq1 with hqe | hqm
      · obtain ⟨ge, hge, rfl⟩ := List.mem_map.mp hqe
        exact Or.inl ⟨ge, hge, hqmem⟩
      · obtain ⟨d, hd, hq0⟩ := List.mem_flatMap.mp hqm
        obtain ⟨gid, hgid, rfl⟩ := List.mem_map.mp hq0
        simp only [List.mem_singleton] at hqmem
        refine Or.inr ⟨d, hd, hqmem, ?_⟩
        intro hnil
        rw [hnil] at hgid
        simp at hgid
    · obtain ⟨q0, hq0, rfl⟩ := List.mem_map.mp hq2
      simp [promotedPatch] at hqmem

theorem tableOf_members_nodup (svcs : List RawService) (G : List RawGroup) :
    ∀ g ∈ tableOf svcs G, g.members.Nodup :=
  foldUpsert_members_nodup _ [] (by simp)

theorem foldUpsert_rebuild :
    ∀ (l acc : List ParsedGroup),
      ((acc ++ l).map (fun g => g.id)).Nodup → (∀ g ∈ l, g.members.Nodup) →
      ((l.map (fun g => (⟨g.id, g.label, g.type, g.members, g.parentId,
        g.sourceServiceId⟩ : GroupPatch))).foldl upsertGroup acc) = acc ++ l := by
  intro l
  induction l with
  | nil => intro acc _ _; simp
  | cons g l2 ih =>
    intro acc hn hm
    simp only [List.map_cons, List.foldl_cons]
    have hgid : g.id ∉ acc.map (fun u => u.id) := by
      intro hmem
      rw [List.map_append, List.nodup_append] at hn
      exact hn.2.2 hmem (by simp)
    have hstep : upsertGroup acc ⟨g.id, g.label, g.type, g.members, g.parentId,
        g.sourceServiceId⟩ = acc ++ [g] := by
      unfold upsertGroup
      rw [if_neg]
      · have hded : dedupIds g.members = g.members := dedupIds_eq_self (hm g (by simp))
        rw [hded]
      · intro hany
        obtain ⟨u, hu, hui⟩ := List.any_eq_true.mp hany
        exact hgid (List.mem_map.mpr ⟨u, hu, by simpa using hui⟩)
    rw [hstep]
    have := ih (acc ++ [g]) (by simpa using hn) (fun u hu => hm u (by simp [hu]))
    simpa using this

end AzViz

namespace AzViz

theorem filterMembers_idem (a b : List String) (t : List ParsedGroup) :
    filterMembers a b (filterMembers a b t) = filterMembers a b t := by
  unfold filterMembers
  rw [List.map_map]
  apply List.map_congr_left
  intro g _
  simp only [Function.comp]
  congr 1
  rw [List.filter_filter]
  simp [Bool.and_self]

theorem filterMembers_members_nodup (a b : List String) (svcs : List RawService)
    (G : List RawGroup) :
    ∀ g ∈ filterMembers a b (tableOf svcs G), g.members.Nodup := by
  intro g hg
  unfold filterMembers at hg
  obtain ⟨g0, hg0, rfl⟩ := List.mem_map.mp hg
  exact (tableOf_members_nodup svcs G g0 hg0).filter _

theorem refeed_promote_false (svcs : List RawService) (G : List RawGroup)
    (s : RawService) (hsS : s ∈ survivingOf svcs G) :
    promoteCond
      ((survivingOf svcs G).map (fun u => (⟨u.id, u.title, []⟩ : RawService)))
      ((filterMembers (svcIdsOf svcs G) (gIdsOf svcs G) (tableOf svcs G)).map
        (fun g => (⟨g.id, g.label, g.members, g.parentId, some g.type,
          g.sourceServiceId⟩ : RawGroup)))
      ⟨s.id, s.title, []⟩ = false := by
  have hDnodup := dedupServices_nodup_ids svcs
  have hsD : s ∈ dedupServices svcs := (List.mem_filter.mp hsS).1
  have hsF : promoteCond (dedupServices svcs) G s = false := by
    have := (List.mem_filter.mp hsS).2
    simpa using this
  cases hval : promoteCond
      ((survivingOf svcs G).map (fun u => (⟨u.id, u.title, []⟩ : RawService)))
      ((filterMembers (svcIdsOf svcs G) (gIdsOf svcs G) (tableOf svcs G)).map
        (fun g => (⟨g.id, g.label, g.members, g.parentId, some g.type,
          g.sourceServiceId⟩ : RawGroup)))
      ⟨s.id, s.title, []⟩ with
  | false => rfl
  | true =>
    exfalso
    simp only [promoteCond, Bool.and_eq_true, Bool.or_eq_true] at hval
    obtain ⟨htrig, hheur⟩ := hval
    have hheur1 : listedAsParent G s.id = true ∨ isContainerTitle s.title = true := by
      rcases hheur with hL2 | hCt
      · left
        unfold listedAsParent at hL2 ⊢
        obtain ⟨g2, hg2, hpar⟩ := List.any_eq_true.mp hL2
        obtain ⟨g, hgT, rfl⟩ := List.mem_map.mp hg2
        obtain ⟨g0, hg0, -, -, hpar0, -⟩ := mem_filterMembers hgT
        have hx : g0.parentId = some s.id := by
          rw [← hpar0]
          simpa using hpar
        obtain ⟨ge, hge, hgep⟩ := tableOf_parent_origin svcs G hg0 hx
        exact List.any_eq_true.mpr ⟨ge, hge, by simp [hgep]⟩
      · right
        exact hCt
    have htrig1 : usedAsGroup (dedupServices svcs) G s.id = true ∨
        referencedAsMember G s = true := by
      rcases htrig with hU2 | hM2
      · unfold usedAsGroup at hU2
        simp only [Bool.or_eq_true] at hU2
        rcases hU2 with (ha | hb) | hc
        · obtain ⟨u, hu, hmem⟩ := List.any_eq_true.mp ha
          obtain ⟨t, -, rfl⟩ := List.mem_map.mp hu
          simp at hmem
        · obtain ⟨g2, hg2, hgid⟩ := List.any_eq_true.mp hb
          obtain ⟨g, hgT, rfl⟩ := List.mem_map.mp hg2
          have hgids : g.id = s.id := by simpa using hgid
          obtain ⟨g0, hg0, hid0, -, -, -⟩ := mem_filterMembers hgT
          have hi : s.id ∈ (tableOf svcs G).map (fun u => u.id) :=
            List.mem_map.mpr ⟨g0, hg0, by rw [← hid0, hgids]⟩
          rcases tableOf_ids_origin svcs G hi with ⟨ge, hge, hgi⟩ | ⟨d, hd, hdg⟩ |
            ⟨q, hqP, hqi⟩
          · left
            unfold usedAsGroup
            simp only [Bool.or_eq_true]
            exact Or.inl (Or.inr (List.any_eq_true.mpr ⟨ge, hge, by simp [hgi]⟩))
          · left
            unfold usedAsGroup
            simp only [Bool.or_eq_true]
            exact Or.inl (Or.inl (List.any_eq_true.mpr ⟨d, hd, by simp [hdg]⟩))
          · have hqs : q = s :=
              List.inj_on_of_nodup_map hDnodup (List.mem_filter.mp hqP).1 hsD hqi
            have hqc := (List.mem_filter.mp hqP).2
            rw [hqs] at hqc
            rw [hsF] at hqc
            exact absurd hqc (by simp)
        · obtain ⟨g2, hg2, hpar⟩ := List.any_eq_true.mp hc
          obtain ⟨g, hgT, rfl⟩ := List.mem_map.mp hg2
          obtain ⟨g0, hg0, -, -, hpar0, -⟩ := mem_filterMembers hgT
          have hx : g0.parentId = some s.id := by
            rw [← hpar0]
            simpa using hpar
          obtain ⟨ge, hge, hgep⟩ := tableOf_parent_origin svcs G hg0 hx
          left
          unfold usedAsGroup
          simp only [Bool.or_eq_true]
          exact Or.inr (List.any_eq_true.mpr ⟨ge, hge, by simp [hgep]⟩)
      · unfold referencedAsMember at hM2
        rw [Bool.or_eq_true] at hM2
        rcases hM2 with hM2a | hM2b
        · simp at hM2a
        · obtain ⟨g2, hg2, hmem⟩ := List.any_eq_true.mp hM2b
          obtain ⟨g, hgT, rfl⟩ := List.mem_map.mp hg2
          have hmem2 : s.id ∈ g.members := by simpa using hmem
          obtain ⟨g0, hg0, -, -, -, hsub⟩ := mem_filterMembers hgT
          have hmem0 : s.id ∈ g0.members := hsub _ hmem2
          rcases tableOf_members_origin svcs G hg0 hmem0 with ⟨ge, hge, hgm⟩ |
            ⟨d, hd, hdid, hdne⟩
          · right
            unfold referencedAsMember
            rw [Bool.or_eq_true]
            exact Or.inr (List.any_eq_true.mpr ⟨ge, hge, by simp [hgm]⟩)
          · have hds : d = s := List.inj_on_of_nodup_map hDnodup hd hsD hdid.symm
            rw [hds] at hdne
            right
            unfold referencedAsMember
            rw [Bool.or_eq_true]
            left
            simp [List.isEmpty_iff_eq_nil, hdne]
    have hcontr : promoteCond (dedupServices svcs) G s = true := by
      unfold promoteCond
      rw [Bool.and_eq_true, Bool.or_eq_true, Bool.or_eq_true]
      exact ⟨htrig1, hheur1⟩
    rw [hsF] at hcontr
    exact absurd hcontr (by simp)

end AzViz

namespace AzViz

theorem survivingOf_all (svcs2 : List RawService) (G2 : List RawGroup)
    (hded : dedupServices svcs2 = svcs2)
    (hall : ∀ u ∈ svcs2, promoteCond svcs2 G2 u = false) :
    survivingOf svcs2 G2 = svcs2 := by
  unfold survivingOf
  rw [hded]
  apply List.filter_eq_self.mpr
  intro u hu
  simp [hall u hu]

theorem promotedOf_nil (svcs2 : List RawService) (G2 : List RawGroup)
    (hded : dedupServices svcs2 = svcs2)
    (hall : ∀ u ∈ svcs2, promoteCond svcs2 G2 u = false) :
    promotedOf svcs2 G2 = [] := by
  unfold promotedOf
  rw [hded]
  rw [List.filter_eq_nil]
  intro u hu
  simp [hall u hu]

theorem membershipPatches_nil (svcs2 : List RawService)
    (hgids : ∀ u ∈ svcs2, u.groupIds = []) :
    membershipPatches svcs2 = [] := by
  unfold membershipPatches
  rw [List.flatMap_eq_nil_iff]
  intro u hu
  rw [hgids u hu]
  rfl

theorem tableOf_no_memberships (svcs2 : List RawService) (G2 : List RawGroup)
    (hded : dedupServices svcs2 = svcs2)
    (hgids : ∀ u ∈ svcs2, u.groupIds = [])
    (hprom : promotedOf svcs2 G2 = []) :
    tableOf svcs2 G2 = (G2.map explicitPatch).foldl upsertGroup [] := by
  unfold tableOf buildGroups
  rw [hded, membershipPatches_nil svcs2 hgids, hprom]
  simp

theorem svcIdsOf_refeed (svcs2 : List RawService) (G2 : List RawGroup)
    (hsurv : survivingOf svcs2 G2 = svcs2) :
    svcIdsOf svcs2 G2 = svcs2.map (fun u => u.id) := by
  unfold svcIdsOf
  rw [hsurv]

theorem gIdsOf_refeed (svcs2 : List RawService) (G2 : List RawGroup)
    (t : List ParsedGroup) (h : tableOf svcs2 G2 = t) :
    gIdsOf svcs2 G2 = t.map (fun g => g.id) := by
  unfold gIdsOf
  rw [h]

theorem normalize_idem (svcs : List RawService) (G : List RawGroup) (C : List Connection) :
    normalize
      ((survivingOf svcs G).map (fun s => (⟨s.id, s.title, []⟩ : RawService)))
      ((filterMembers (svcIdsOf svcs G) (gIdsOf svcs G) (tableOf svcs G)).map
        (fun g => (⟨g.id, g.label, g.members, g.parentId, some g.type,
          g.sourceServiceId⟩ : RawGroup)))
      (C.filter (connPred (svcIdsOf svcs G) (gIdsOf svcs G)))
    = normalize svcs G C := by
  have hids2 : ((survivingOf svcs G).map
      (fun s => (⟨s.id, s.title, []⟩ : RawService))).map (fun u => u.id) =
      (survivingOf svcs G).map (fun u => u.id) := by
    rw [List.map_map]
    rfl
  have hnodup2 : (((survivingOf svcs G).map
      (fun s => (⟨s.id, s.title, []⟩ : RawService))).map (fun u => u.id)).Nodup := by
    rw [hids2]
    exact (dedupServices_nodup_ids svcs).sublist ((List.filter_sublist _).map _)
  have hdedup2 : dedupServices ((survivingOf svcs G).map
      (fun s => (⟨s.id, s.title, []⟩ : RawService))) =
      (survivingOf svcs G).map (fun s => (⟨s.id, s.title, []⟩ : RawService)) :=
    dedupServices_eq_self hnodup2
  have hpcall : ∀ u ∈ (survivingOf svcs G).map
      (fun s => (⟨s.id, s.title, []⟩ : RawService)),
      promoteCond ((survivingOf svcs G).map
        (fun s => (⟨s.id, s.title, []⟩ : RawService)))
        ((filterMembers (svcIdsOf svcs G) (gIdsOf svcs G) (tableOf svcs G)).map
          (fun g => (⟨g.id, g.label, g.members, g.parentId, some g.type,
            g.sourceServiceId⟩ : RawGroup))) u = false := by
    intro u hu
    obtain ⟨s, hsS, rfl⟩ := List.mem_map.mp hu
    exact refeed_promote_false svcs G s hsS
  have hgids0 : ∀ u ∈ (survivingOf svcs G).map
      (fun s => (⟨s.id, s.title, []⟩ : RawService)), u.groupIds = [] := by
    intro u hu
    obtain ⟨s, -, rfl⟩ := List.mem_map.mp hu
    rfl
  have hsurv2 := survivingOf_all _ _ hdedup2 hpcall
  have hprom2 := promotedOf_nil _ _ hdedup2 hpcall
  have hmaps : (((filterMembers (svcIdsOf svcs G) (gIdsOf svcs G)
      (tableOf svcs G)).map
      (fun g => (⟨g.id, g.label, g.members, g.parentId, some g.type,
        g.sourceServiceId⟩ : RawGroup))).map explicitPatch) =
      (filterMembers (svcIdsOf svcs G) (gIdsOf svcs G) (tableOf svcs G)).map
        (fun g => (⟨g.id, g.label, g.type, g.members, g.parentId,
          g.sourceServiceId⟩ : GroupPatch)) := by
    rw [List.map_map]
    rfl
  have htable2 : tableOf ((survivingOf svcs G).map
      (fun s => (⟨s.id, s.title, []⟩ : RawService)))
      ((filterMembers (svcIdsOf svcs G) (gIdsOf svcs G) (tableOf svcs G)).map
        (fun g => (⟨g.id, g.label, g.members, g.parentId, some g.type,
          g.sourceServiceId⟩ : RawGroup))) =
      filterMembers (svcIdsOf svcs G) (gIdsOf svcs G) (tableOf svcs G) := by
    rw [tableOf_no_memberships _ _ hdedup2 hgids0 hprom2, hmaps]
    have := foldUpsert_rebuild
      (filterMembers (svcIdsOf svcs G) (gIdsOf svcs G) (tableOf svcs G)) []
      (by
        simp only [List.nil_append]
        rw [filterMembers_ids]
        exact tableOf_nodup_ids svcs G)
      (filterMembers_members_nodup _ _ svcs G)
    simpa using this
  have hsvcIds2 : svcIdsOf ((survivingOf svcs G).map
      (fun s => (⟨s.id, s.title, []⟩ : RawService)))
      ((filterMembers (svcIdsOf svcs G) (gIdsOf svcs G) (tableOf svcs G)).map
        (fun g => (⟨g.id, g.label, g.members, g.parentId, some g.type,
          g.sourceServiceId⟩ : RawGroup))) = svcIdsOf svcs G :=
    (svcIdsOf_refeed _ _ hsurv2).trans hids2
  have hgIds2 : gIdsOf ((survivingOf svcs G).map
      (fun s => (⟨s.id, s.title, []⟩ : RawService)))
      ((filterMembers (svcIdsOf svcs G) (gIdsOf svcs G) (tableOf svcs G)).map
        (fun g => (⟨g.id, g.label, g.members, g.parentId, some g.type,
          g.sourceServiceId⟩ : RawGroup))) = gIdsOf svcs G := by
    rw [gIdsOf_refeed _ _ _ htable2, filterMembers_ids]
    rfl
  show ParsedArchitecture.mk _ _ _ _ = ParsedArchitecture.mk _ _ _ _
  simp only [ParsedArchitecture.mk.injEq]
  refine ⟨?_, ?_, trivial, ?_⟩
  · rw [hsurv2, List.map_map]
    rfl
  · rw [hsvcIds2, hgIds2, List.filter_filter]
    simp [Bool.and_self]
  · rw [hsvcIds2, hgIds2, htable2]
    exact filterMembers_idem _ _ _

end AzViz

/-- C2: the structured normalizer is idempotent - for every payload it
accepts, feeding the returned ParsedArchitecture back into the normalizer
yields an identical ParsedArchitecture. -/
theorem c2_normalizer_idempotent (p : AzViz.LoosePayload) (arch : AzViz.ParsedArchitecture)
    (h : AzViz.parseStructuredDiagram p = some arch) :
    AzViz.parseStructuredDiagram (AzViz.toPayload arch) = some arch := by
  obtain ⟨svcs, hsv, rfl⟩ := AzViz.parse_some_iff h
  unfold AzViz.parseStructuredDiagram AzViz.toPayload
  simp only [Bool.not_true, Bool.false_eq_true, if_false, Option.getD_some]
  refine congrArg some ?_
  have hserv : (AzViz.normalize svcs (p.groups.getD []) (p.connections.getD [])).services.map
      (fun m => (⟨m.id, m.title, []⟩ : AzViz.RawService)) =
      (AzViz.survivingOf svcs (p.groups.getD [])).map
        (fun s => (⟨s.id, s.title, []⟩ : AzViz.RawService)) := by
    show ((AzViz.survivingOf svcs (p.groups.getD [])).map
      (fun s => (⟨s.id, s.title⟩ : AzViz.ModelService))).map _ = _
    rw [List.map_map]
    rfl
  rw [hserv]
  exact AzViz.normalize_idem svcs (p.groups.getD []) (p.connections.getD [])

/-- Witness for C2 at the repository's first test fixture. -/
theorem c2_witness :
    AzViz.parseStructuredDiagram
      ⟨true, some [⟨"mg", "Management Groups", []⟩, ⟨"vm", "Virtual Machine", ["mg"]⟩],
       some [], some [⟨"vm", "mg", some "scope"⟩]⟩ =
      some (AzViz.normalize
        [⟨"mg", "Management Groups", []⟩, ⟨"vm", "Virtual Machine", ["mg"]⟩] []
        [⟨"vm", "mg", some "scope"⟩]) ∧
    AzViz.parseStructuredDiagram
      (AzViz.toPayload (AzViz.normalize
        [⟨"mg", "Management Groups", []⟩, ⟨"vm", "Virtual Machine", ["mg"]⟩] []
        [⟨"vm", "mg", some "scope"⟩])) =
      some (AzViz.normalize
        [⟨"mg", "Management Groups", []⟩, ⟨"vm", "Virtual Machine", ["mg"]⟩] []
        [⟨"vm", "mg", some "scope"⟩]) :=
  ⟨rfl, c2_normalizer_idempotent
    ⟨true, some [⟨"mg", "Management Groups", []⟩, ⟨"vm", "Virtual Machine", ["mg"]⟩],
     some [], some [⟨"vm", "mg", some "scope"⟩]⟩
    (AzViz.normalize
      [⟨"mg", "Management Groups", []⟩, ⟨"vm", "Virtual Machine", ["mg"]⟩] []
      [⟨"vm", "mg", some "scope"⟩]) rfl⟩

namespace Bicep

theorem matchResourceAt_decl (ident tv rest : List Char)
    (hi1 : ident ≠ []) (hi2 : ∀ c ∈ ident, isIdentChar c = true)
    (ht1 : tv ≠ []) (ht2 : ∀ c ∈ tv, (!(c = tickChar) : Bool) = true) :
    matchResourceAt
      (resourceLit ++ ' ' :: (ident ++ (' ' :: tickChar :: (tv ++ tickChar :: rest)))) =
      some (ident, tv, ident.length + tv.length + 12) := by
  obtain ⟨ic, it, rfl⟩ : ∃ ic it, ident = ic :: it := by
    cases ident with
    | nil => exact absurd rfl hi1
    | cons a b => exact ⟨a, b, rfl⟩
  have hic : isIdentChar ic = true := hi2 ic (by simp)
  have hicws : isWS ic = false := Patterns.word_not_ws ic hic
  have hsp1 : spanWhile isWS
      (' ' :: ((ic :: it) ++ (' ' :: tickChar :: (tv ++ tickChar :: rest)))) =
      ([' '], (ic :: it) ++ (' ' :: tickChar :: (tv ++ tickChar :: rest))) := by
    rw [List.cons_append, spanWhile_cons_pos _ (by decide),
      spanWhile_cons_neg _ hicws]
  have hsp2 : spanWhile isIdentChar
      ((ic :: it) ++ (' ' :: tickChar :: (tv ++ tickChar :: rest))) =
      (ic :: it, ' ' :: tickChar :: (tv ++ tickChar :: rest)) :=
    spanWhile_stop hi2 (by decide) _
  have hsp3 : spanWhile isWS (' ' :: tickChar :: (tv ++ tickChar :: rest)) =
      ([' '], tickChar :: (tv ++ tickChar :: rest)) := by
    rw [spanWhile_cons_pos _ (by decide), spanWhile_cons_neg _ (by decide)]
  have hsp4 : spanWhile (fun d => !(d = tickChar)) (tv ++ tickChar :: rest) =
      (tv, tickChar :: rest) :=
    spanWhile_stop ht2 (by simp) _
  obtain ⟨tc, tt, htv⟩ : ∃ tc tt, tv = tc :: tt := by
    cases tv with
    | nil => exact absurd rfl ht1
    | cons a b => exact ⟨a, b, rfl⟩
  subst htv
  simp only [matchResourceAt, dropLiteral_append, hsp1, hsp2, hsp3, hsp4]
  simp only [List.isEmpty_cons, Bool.false_eq_true, if_false, if_true]
  simp only [Option.some_inj, Prod.mk.injEq]
  refine ⟨trivial, trivial, ?_⟩
  simp only [resourceLit, List.length_cons, List.length_nil, List.length_singleton]
  omega

theorem matchResourceAt_not_r {c : Char} (cs : List Char) (h : c ≠ 'r') :
    matchResourceAt (c :: cs) = none := by
  unfold matchResourceAt resourceLit
  simp [dropLiteral, h]

theorem execFrom_cons_none {c : Char} {cs : List Char}
    (h : matchResourceAt (c :: cs) = none) :
    execFrom (c :: cs) =
      (execFrom cs).map (fun r => (r.1 + 1, r.2.1, r.2.2.1, r.2.2.2 + 1)) := by
  simp [execFrom, h]

theorem execFrom_cons_some {c : Char} {cs : List Char} {ident tv : List Char} {n : Nat}
    (h : matchResourceAt (c :: cs) = some (ident, tv, n)) :
    execFrom (c :: cs) = some (0, ident, tv, n) := by
  simp [execFrom, h]

theorem execFrom_append_no_r (xs : List Char) (h : ∀ c ∈ xs, c ≠ 'r')
    (rest : List Char) :
    execFrom (xs ++ rest) =
      (execFrom rest).map
        (fun r => (r.1 + xs.length, r.2.1, r.2.2.1, r.2.2.2 + xs.length)) := by
  induction xs with
  | nil =>
    cases h0 : execFrom rest with
    | none => simp [h0]
    | some r =>
      obtain ⟨a, b, c, d⟩ := r
      simp [h0]
  | cons c xs2 ih =>
    have hm : matchResourceAt (c :: (xs2 ++ rest)) = none :=
      matchResourceAt_not_r _ (h c (by simp))
    rw [List.cons_append, execFrom_cons_none hm,
      ih (fun d hd => h d (by simp [hd]))]
    cases h0 : execFrom rest with
    | none => simp
    | some r =>
      obtain ⟨a, b, c2, d⟩ := r
      simp only [Option.map_some', List.length_cons]
      refine congrArg some ?_
      simp only [Prod.mk.injEq]
      refine ⟨by omega, trivial, trivial, by omega⟩

theorem execFrom_all_no_r (cs : List Char) (h : ∀ c ∈ cs, c ≠ 'r') :
    execFrom cs = none := by
  have := execFrom_append_no_r cs h []
  simp only [List.append_nil] at this
  rw [this]
  rfl

theorem idxOfBrace_cons_hit (cs : List Char) :
    idxOfBrace (braceOpen :: cs) = some 0 := by
  simp [idxOfBrace]

theorem idxOfBrace_append_no (xs : List Char) (h : braceOpen ∉ xs) (rest : List Char) :
    idxOfBrace (xs ++ rest) = (idxOfBrace rest).map (fun i => i + xs.length) := by
  induction xs with
  | nil =>
    cases h0 : idxOfBrace rest with
    | none => simp [h0]
    | some i => simp [h0]
  | cons c xs2 ih =>
    have hc : c ≠ braceOpen := fun he => h (by simp [he])
    rw [List.cons_append]
    simp only [idxOfBrace, hc, if_false]
    rw [ih (fun hm => h (by simp [hm]))]
    cases h0 : idxOfBrace rest with
    | none => simp
    | some i =>
      simp only [Option.map_some', List.length_cons]
      exact congrArg some (by omega)

theorem parseLoop_none {cs : List Char} (h : execFrom cs = none) :
    ∀ fuel, parseLoop fuel cs = [] := by
  intro fuel
  cases fuel with
  | zero => rfl
  | succ f => simp [parseLoop, h]

end Bicep

namespace Bicep

theorem prevOpt_cons (p : Option Char) (c : Char) (cs : List Char) :
    prevOpt p (c :: cs) = prevOpt (some c) cs := rfl

theorem prevOpt_ne_back (xs : List Char) :
    ∀ (p : Option Char), p ≠ some backChar → (∀ c ∈ xs, c ≠ backChar) →
      prevOpt p xs ≠ some backChar := by
  induction xs with
  | nil => intro p hp _; exact hp
  | cons c cs ih =>
    intro p hp h
    exact ih (some c) (fun he => h c (by simp) (Option.some.inj he))
      (fun d hd => h d (by simp [hd]))

theorem extractBlockGo_cons_step {c : Char} {rest : List Char} {bc bc2 : Int}
    {inS inS2 : Bool} {p : Option Char}
    (hstep : scanStep (bc, inS, p) c = (bc2, inS2, some c))
    (hnc : (!inS2 && c = braceClose && bc - 1 = 0) = false) :
    extractBlockGo (c :: rest) bc inS p =
      (extractBlockGo rest bc2 inS2 (some c)).map (fun t => c :: t) := by
  rw [extractBlockGo_cons, hstep]
  have h2 : (!(bc2, inS2, (some c : Option Char)).2.1 && c = braceClose &&
      bc - 1 = 0) = false := hnc
  rw [if_neg (fun h => Bool.false_ne_true (h2 ▸ h))]

theorem extractBlockGo_cons_close {c : Char} {rest : List Char} {bc : Int}
    {inS : Bool} {p : Option Char}
    (hstep : (scanStep (bc, inS, p) c).2.1 = false)
    (hc : c = braceClose) (hbc : bc - 1 = 0) :
    extractBlockGo (c :: rest) bc inS p = some [c] := by
  subst hc
  rw [extractBlockGo_cons, if_pos (by simp [hstep, hbc])]

theorem go_skip_outside (xs : List Char)
    (h : ∀ c ∈ xs, c ≠ quoteChar ∧ c ≠ braceOpen ∧ c ≠ braceClose) :
    ∀ (rest : List Char) (bc : Int) (inS : Bool) (p : Option Char),
      extractBlockGo (xs ++ rest) bc inS p =
        (extractBlockGo rest bc inS (prevOpt p xs)).map (fun t => xs ++ t) := by
  induction xs with
  | nil =>
    intro rest bc inS p
    cases h0 : extractBlockGo rest bc inS (prevOpt p []) <;> simp [prevOpt] at h0 ⊢ <;>
      simp [h0]
  | cons c cs ih =>
    intro rest bc inS p
    obtain ⟨hq, ho, hc⟩ := h c (by simp)
    have hstep : scanStep (bc, inS, p) c = (bc, inS, some c) := by
      simp [scanStep, hq, ho, hc]
    have hnc : (!inS && c = braceClose && bc - 1 = 0) = false := by
      simp [hc]
    rw [List.cons_append, extractBlockGo_cons_step hstep hnc,
      ih (fun d hd => h d (List.mem_cons_of_mem _ hd)) rest bc inS (some c), prevOpt_cons]
    cases extractBlockGo rest bc inS (prevOpt (some c) cs) <;> simp

theorem go_skip_instring (xs : List Char) (h : ∀ c ∈ xs, c ≠ quoteChar) :
    ∀ (rest : List Char) (bc : Int) (p : Option Char),
      extractBlockGo (xs ++ rest) bc true p =
        (extractBlockGo rest bc true (prevOpt p xs)).map (fun t => xs ++ t) := by
  induction xs with
  | nil =>
    intro rest bc p
    cases h0 : extractBlockGo rest bc true (prevOpt p []) <;> simp [prevOpt] at h0 ⊢ <;>
      simp [h0]
  | cons c cs ih =>
    intro rest bc p
    have hq := h c (by simp)
    have hstep : scanStep (bc, true, p) c = (bc, true, some c) := by
      simp [scanStep, hq]
    have hnc : (!true && c = braceClose && bc - 1 = 0) = false := rfl
    rw [List.cons_append, extractBlockGo_cons_step hstep hnc,
      ih (fun d hd => h d (List.mem_cons_of_mem _ hd)) rest bc (some c), prevOpt_cons]
    cases extractBlockGo rest bc true (prevOpt (some c) cs) <;> simp

theorem go_close_quote (p : Option Char) (hp : p ≠ some backChar) (rest : List Char) :
    extractBlockGo (quoteChar :: ' ' :: braceClose :: rest) 1 true p =
      some [quoteChar, ' ', braceClose] := by
  have hstep1 : scanStep (1, true, p) quoteChar = (1, false, some quoteChar) := by
    simp [scanStep, hp]
    decide
  have hstep2 : scanStep (1, false, some quoteChar) ' ' = (1, false, some ' ') := rfl
  have hstep3 : (scanStep (1, false, some ' ') braceClose).2.1 = false := rfl
  rw [extractBlockGo_cons_step hstep1 (by decide),
    extractBlockGo_cons_step hstep2 (by decide),
    extractBlockGo_cons_close hstep3 rfl (by decide)]
  rfl

end Bicep

namespace Bicep

theorem execFrom_head_some {cs : List Char} {ident tv : List Char} {n : Nat}
    (h : matchResourceAt cs = some (ident, tv, n)) :
    execFrom cs = some (0, ident, tv, n) := by
  cases cs with
  | nil =>
    rw [show matchResourceAt [] = none from rfl] at h
    cases h
  | cons c rest => simp [execFrom, h]

theorem filter_notWS_nonempty {l : List Char} {c : Char} (hc : c ∈ l)
    (h : (!isWS c) = true) : (l.filter (fun d => !isWS d)).isEmpty = false := by
  have hm : c ∈ l.filter (fun d => !isWS d) := List.mem_filter.mpr ⟨hc, h⟩
  cases hf : l.filter (fun d => !isWS d) with
  | nil => rw [hf] at hm; cases hm
  | cons a b => rfl

theorem extractBlockGo_body (mid s rest : List Char)
    (hmid : ∀ c ∈ mid, c ≠ quoteChar ∧ c ≠ braceOpen ∧ c ≠ braceClose ∧ c ≠ backChar)
    (hs : ∀ c ∈ s, c ≠ quoteChar ∧ c ≠ backChar) :
    extractBlockGo
      ((braceOpen :: (mid ++ quoteChar :: (s ++ quoteChar :: ' ' :: [braceClose]))) ++ rest)
      0 false none =
      some (braceOpen :: (mid ++ quoteChar :: (s ++ quoteChar :: ' ' :: [braceClose]))) := by
  have hstep1 : scanStep (0, false, (none : Option Char)) braceOpen =
      (1, false, some braceOpen) := rfl
  rw [List.cons_append, extractBlockGo_cons_step hstep1 (by decide), List.append_assoc,
    go_skip_outside mid
      (fun c hc => ⟨(hmid c hc).1, (hmid c hc).2.1, (hmid c hc).2.2.1⟩) _ 1 false
      (some braceOpen)]
  have hprev : prevOpt (some braceOpen) mid ≠ some backChar :=
    prevOpt_ne_back mid (some braceOpen) (by decide) (fun c hc => (hmid c hc).2.2.2)
  have hstep2 : scanStep (1, false, prevOpt (some braceOpen) mid) quoteChar =
      (1, true, some quoteChar) := by
    simp [scanStep, hprev]
  rw [List.cons_append, extractBlockGo_cons_step hstep2 (by decide), List.append_assoc,
    go_skip_instring s (fun c hc => (hs c hc).1) _ 1 (some quoteChar)]
  have hprev2 : prevOpt (some quoteChar) s ≠ some backChar :=
    prevOpt_ne_back s (some quoteChar) (by decide) (fun c hc => (hs c hc).2)
  simp only [List.cons_append, List.nil_append]
  rw [go_close_quote _ hprev2 rest]
  simp only [Option.map_some']

end Bicep

namespace Bicep

theorem all_ne_of_all (l : List Char) (ch : Char)
    (h : l.all (fun c => !(c = ch)) = true) : ∀ c ∈ l, c ≠ ch := by
  intro c hc
  have := List.all_eq_true.mp h c hc
  simpa using this

theorem extractBlock_eq_of_go {content : List Char} {i : Nat} {b : List Char}
    (h : extractBlockGo (content.drop i) 0 false none = some b) :
    extractBlock content i = b := by
  unfold extractBlock
  rw [h]

set_option maxRecDepth 4000 in
set_option maxHeartbeats 2000000 in
/-- C7: a template with two resource declarations whose bodies carry brace
characters inside double-quoted string-valued properties is parsed by
`parseBicepResources` into exactly two resources, each resource's `body`
being the verbatim substring from its opening brace to the matching closing
brace, the depth counter ignoring the braces inside the quoted strings. -/
theorem c7_two_resources_braces_in_strings (s1 s2 : List Char)
    (hs1 : ∀ c ∈ s1, c = braceOpen ∨ c = braceClose ∨ c = ' ')
    (hs2 : ∀ c ∈ s2, c = braceOpen ∨ c = braceClose ∨ c = ' ')
    (hb1 : braceOpen ∈ s1) (hb2 : braceClose ∈ s2) :
    parseBicepResources
      ("resource storageAcct ".data ++ tickChar ::
        ("Microsoft.Storage/storageAccounts@2022-09-01".data ++ tickChar ::
          ((' ' :: '=' :: ' ' ::
            ((braceOpen :: (" name: ".data ++ quoteChar ::
              (s1 ++ quoteChar :: ' ' :: [braceClose]))) ++ [newlineChar])) ++
           ("resource webApp ".data ++ tickChar ::
             ("Microsoft.Web/sites@2022-03-01".data ++ tickChar :: ' ' :: '=' :: ' ' ::
               (braceOpen :: (" kind: ".data ++ quoteChar ::
                 (s2 ++ quoteChar :: ' ' :: [braceClose])))))))) =
      [mkResource "storageAcct".data "Microsoft.Storage/storageAccounts@2022-09-01".data
        (braceOpen :: (" name: ".data ++ quoteChar ::
          (s1 ++ quoteChar :: ' ' :: [braceClose]))),
       mkResource "webApp".data "Microsoft.Web/sites@2022-03-01".data
        (braceOpen :: (" kind: ".data ++ quoteChar ::
          (s2 ++ quoteChar :: ' ' :: [braceClose])))] := by
  set body1 := braceOpen :: (" name: ".data ++ quoteChar ::
    (s1 ++ quoteChar :: ' ' :: [braceClose])) with hbody1
  set body2 := braceOpen :: (" kind: ".data ++ quoteChar ::
    (s2 ++ quoteChar :: ' ' :: [braceClose])) with hbody2
  set seg := ' ' :: '=' :: ' ' :: (body1 ++ [newlineChar]) with hseg
  set d2 := "resource webApp ".data ++ tickChar ::
    ("Microsoft.Web/sites@2022-03-01".data ++ tickChar :: ' ' :: '=' :: ' ' :: body2) with hd2
  set tpl := "resource storageAcct ".data ++ tickChar ::
    ("Microsoft.Storage/storageAccounts@2022-09-01".data ++ tickChar :: (seg ++ d2)) with htpl
  have hs1q : ∀ c ∈ s1, c ≠ quoteChar ∧ c ≠ backChar := by
    intro c hc
    rcases hs1 c hc with rfl | rfl | rfl <;> exact ⟨by decide, by decide⟩
  have hs2q : ∀ c ∈ s2, c ≠ quoteChar ∧ c ≠ backChar := by
    intro c hc
    rcases hs2 c hc with rfl | rfl | rfl <;> exact ⟨by decide, by decide⟩
  have hs1r : ∀ c ∈ s1, c ≠ 'r' := by
    intro c hc
    rcases hs1 c hc with rfl | rfl | rfl <;> decide
  have hs2r : ∀ c ∈ s2, c ≠ 'r' := by
    intro c hc
    rcases hs2 c hc with rfl | rfl | rfl <;> decide
  have hbody1r : ∀ c ∈ body1, c ≠ 'r' := by
    intro c hc
    rw [hbody1] at hc
    simp only [List.mem_cons, List.mem_append, List.mem_singleton, List.mem_nil_iff,
      or_false] at hc
    rcases hc with rfl | hc | rfl | hc | rfl | rfl | rfl
    · decide
    · rcases hc with rfl | rfl | rfl | rfl | rfl | rfl | rfl <;> decide
    · decide
    · exact hs1r c hc
    · decide
    · decide
    · decide
  have hbody2r : ∀ c ∈ body2, c ≠ 'r' := by
    intro c hc
    rw [hbody2] at hc
    simp only [List.mem_cons, List.mem_append, List.mem_singleton, List.mem_nil_iff,
      or_false] at hc
    rcases hc with rfl | hc | rfl | hc | rfl | rfl | rfl
    · decide
    · rcases hc with rfl | rfl | rfl | rfl | rfl | rfl | rfl <;> decide
    · decide
    · exact hs2r c hc
    · decide
    · decide
    · decide
  have hsegr : ∀ c ∈ seg, c ≠ 'r' := by
    intro c hc
    rw [hseg] at hc
    simp only [List.mem_cons, List.mem_append, List.mem_singleton, List.mem_nil_iff,
      or_false] at hc
    rcases hc with rfl | rfl | rfl | hc | rfl
    · decide
    · decide
    · decide
    · exact hbody1r c hc
    · decide
  have hshape1 : tpl = resourceLit ++ ' ' :: ("storageAcct".data ++ (' ' :: tickChar ::
      ("Microsoft.Storage/storageAccounts@2022-09-01".data ++ tickChar :: (seg ++ d2)))) :=
    htpl.trans rfl
  have hm1 : matchResourceAt tpl =
      some ("storageAcct".data, "Microsoft.Storage/storageAccounts@2022-09-01".data, 67) := by
    rw [hshape1]
    exact matchResourceAt_decl _ _ _ (by decide) (by decide) (by decide) (by decide)
  have he1 : execFrom tpl =
      some (0, "storageAcct".data, "Microsoft.Storage/storageAccounts@2022-09-01".data, 67) :=
    execFrom_head_some hm1
  have hsh70 : tpl = ("resource storageAcct ".data ++ tickChar ::
      ("Microsoft.Storage/storageAccounts@2022-09-01".data ++ tickChar :: [' ', '=', ' '])) ++
      ((body1 ++ [newlineChar]) ++ d2) := by
    rw [htpl, hseg]
    rfl
  have hdrop70 : tpl.drop 70 = body1 ++ (newlineChar :: d2) := by
    rw [hsh70, List.append_assoc body1 [newlineChar] d2, List.singleton_append]
    exact List.drop_left' rfl
  have hb1arg : (body1 ++ [newlineChar]) ++ d2 = braceOpen ::
      (((" name: ".data ++ quoteChar :: (s1 ++ quoteChar :: ' ' :: [braceClose])) ++
        [newlineChar]) ++ d2) := by
    rw [hbody1]
    rfl
  have hbr1 : idxOfBrace tpl = some 70 := by
    rw [hsh70, idxOfBrace_append_no ("resource storageAcct ".data ++ tickChar ::
      ("Microsoft.Storage/storageAccounts@2022-09-01".data ++ tickChar :: [' ', '=', ' ']))
      (by decide) ((body1 ++ [newlineChar]) ++ d2), hb1arg, idxOfBrace_cons_hit]
    rfl
  have hgo1 : extractBlockGo (tpl.drop 70) 0 false none = some body1 := by
    rw [hdrop70, hbody1]
    exact extractBlockGo_body (" name: ".data) s1 (newlineChar :: d2) (by decide) hs1q
  have hx1 : extractBlock tpl 70 = body1 := extractBlock_eq_of_go hgo1
  have hsh67 : tpl = ("resource storageAcct ".data ++ tickChar ::
      ("Microsoft.Storage/storageAccounts@2022-09-01".data ++ [tickChar])) ++ (seg ++ d2) :=
    htpl.trans rfl
  have hdrop67 : tpl.drop 67 = seg ++ d2 := by
    rw [hsh67]
    exact List.drop_left' rfl
  have l1 : ("resource storageAcct ".data).length = 21 := rfl
  have l2 : ("Microsoft.Storage/storageAccounts@2022-09-01".data).length = 44 := rfl
  have l3 : ("resource webApp ".data).length = 16 := rfl
  have l4 : ("Microsoft.Web/sites@2022-03-01".data).length = 30 := rfl
  have l5 : ((" name: ".data) : List Char).length = 7 := rfl
  have l6 : ((" kind: ".data) : List Char).length = 7 := rfl
  have hlen : tpl.length = s1.length + s2.length + 145 + 1 := by
    rw [htpl, hseg, hd2, hbody1, hbody2]
    simp only [List.length_append, List.length_cons, List.length_singleton,
      List.length_nil, l1, l2, l3, l4, l5, l6]
    omega
  have hrmem : ('r' : Char) ∈ tpl := by
    rw [htpl]
    exact List.mem_append.mpr (Or.inl (by decide))
  have hguard : (tpl.filter (fun d => !isWS d)).isEmpty = false :=
    filter_notWS_nonempty hrmem (by decide)
  have hshape2 : d2 = resourceLit ++ ' ' :: ("webApp".data ++ (' ' :: tickChar ::
      ("Microsoft.Web/sites@2022-03-01".data ++ tickChar :: (' ' :: '=' :: ' ' :: body2)))) :=
    hd2.trans rfl
  have hm2 : matchResourceAt d2 =
      some ("webApp".data, "Microsoft.Web/sites@2022-03-01".data, 48) := by
    rw [hshape2]
    exact matchResourceAt_decl _ _ _ (by decide) (by decide) (by decide) (by decide)
  have he2d : execFrom d2 =
      some (0, "webApp".data, "Microsoft.Web/sites@2022-03-01".data, 48) :=
    execFrom_head_some hm2
  have he2 : execFrom (seg ++ d2) = some (0 + seg.length, "webApp".data,
      "Microsoft.Web/sites@2022-03-01".data, 48 + seg.length) := by
    rw [execFrom_append_no_r seg hsegr d2, he2d]
    rfl
  have hdropoff2 : (seg ++ d2).drop (0 + seg.length) = d2 := by
    rw [Nat.zero_add]
    exact List.drop_left seg d2
  have hsh51 : d2 = ("resource webApp ".data ++ tickChar ::
      ("Microsoft.Web/sites@2022-03-01".data ++ tickChar :: [' ', '=', ' '])) ++ body2 :=
    hd2.trans rfl
  have hbr2 : idxOfBrace d2 = some 51 := by
    rw [hsh51, idxOfBrace_append_no ("resource webApp ".data ++ tickChar ::
      ("Microsoft.Web/sites@2022-03-01".data ++ tickChar :: [' ', '=', ' ']))
      (by decide) body2, hbody2, idxOfBrace_cons_hit]
    rfl
  have hdrop51 : d2.drop 51 = body2 := by
    rw [hsh51]
    exact List.drop_left' rfl
  have hgo2 : extractBlockGo (d2.drop 51) 0 false none = some body2 := by
    rw [hdrop51, hbody2]
    have := extractBlockGo_body (" kind: ".data) s2 [] (by decide) hs2q
    rwa [List.append_nil] at this
  have hx2 : extractBlock d2 51 = body2 := extractBlock_eq_of_go hgo2
  have hsh48 : d2 = ("resource webApp ".data ++ tickChar ::
      ("Microsoft.Web/sites@2022-03-01".data ++ [tickChar])) ++
      (' ' :: '=' :: ' ' :: body2) := hd2.trans rfl
  have hdrope2 : (seg ++ d2).drop (48 + seg.length) = ' ' :: '=' :: ' ' :: body2 := by
    rw [Nat.add_comm 48 seg.length, List.drop_append, hsh48]
    exact List.drop_left' rfl
  have htail2r : ∀ c ∈ (' ' :: '=' :: ' ' :: body2), c ≠ 'r' := by
    intro c hc
    simp only [List.mem_cons] at hc
    rcases hc with rfl | rfl | rfl | hc
    · decide
    · decide
    · decide
    · exact hbody2r c hc
  have hnone : execFrom (' ' :: '=' :: ' ' :: body2) = none := execFrom_all_no_r _ htail2r
  have hstep1 : ∀ f : Nat, parseLoop (f + 1) tpl =
      mkResource "storageAcct".data "Microsoft.Storage/storageAccounts@2022-09-01".data body1 ::
        parseLoop f (tpl.drop 67) := by
    intro f
    simp only [parseLoop, he1, List.drop_zero, hbr1, hx1]
  have hstep2 : ∀ f : Nat, parseLoop (f + 1) (seg ++ d2) =
      mkResource "webApp".data "Microsoft.Web/sites@2022-03-01".data body2 ::
        parseLoop f ((seg ++ d2).drop (48 + seg.length)) := by
    intro f
    simp only [parseLoop, he2, hdropoff2, hbr2, hx2]
  unfold parseBicepResources
  rw [if_neg (fun h => Bool.false_ne_true (hguard ▸ h)), hstep1 tpl.length, hdrop67, hlen,
    hstep2 (s1.length + s2.length + 145), hdrope2, parseLoop_none hnone]

end Bicep

namespace Bicep

/-- Witness for C7 at a concrete pair of quoted string contents, each holding
a brace character. -/
theorem c7_witness :
    (∀ c ∈ [braceOpen], c = braceOpen ∨ c = braceClose ∨ c = ' ') ∧
    (∀ c ∈ [braceClose], c = braceOpen ∨ c = braceClose ∨ c = ' ') ∧
    braceOpen ∈ [braceOpen] ∧ braceClose ∈ [braceClose] ∧
    parseBicepResources
      ("resource storageAcct ".data ++ tickChar ::
        ("Microsoft.Storage/storageAccounts@2022-09-01".data ++ tickChar ::
          ((' ' :: '=' :: ' ' ::
            ((braceOpen :: (" name: ".data ++ quoteChar ::
              ([braceOpen] ++ quoteChar :: ' ' :: [braceClose]))) ++ [newlineChar])) ++
           ("resource webApp ".data ++ tickChar ::
             ("Microsoft.Web/sites@2022-03-01".data ++ tickChar :: ' ' :: '=' :: ' ' ::
               (braceOpen :: (" kind: ".data ++ quoteChar ::
                 ([braceClose] ++ quoteChar :: ' ' :: [braceClose])))))))) =
      [mkResource "storageAcct".data "Microsoft.Storage/storageAccounts@2022-09-01".data
        (braceOpen :: (" name: ".data ++ quoteChar ::
          ([braceOpen] ++ quoteChar :: ' ' :: [braceClose]))),
       mkResource "webApp".data "Microsoft.Web/sites@2022-03-01".data
        (braceOpen :: (" kind: ".data ++ quoteChar ::
          ([braceClose] ++ quoteChar :: ' ' :: [braceClose])))] :=
  ⟨by decide, by decide, by decide, by decide,
    c7_two_resources_braces_in_strings [braceOpen] [braceClose]
      (by decide) (by decide) (by decide) (by decide)⟩

end Bicep
